import Mathlib

/-!
Verification of the numerical core of the pyQCD lattice gauge-theory library.

The C++ sources are embedded shallowly:

* complex numbers (`std::complex<Real>`) are modelled by `CQ`, pairs of
  rationals with the usual complex ring structure, so that every definition
  is executable and every concrete instance can be settled by `decide`;
* Eigen colour matrices become `Matrix (Fin n) (Fin n) CQ`;
* the global random source is modelled by explicit oracle arguments: each
  function that consumes random numbers receives the values the samplers
  would produce;
* `std::sqrt` applied to a determinant is modelled by an oracle value
  together with a runtime guard stating that the value squares to the
  determinant and is a non-negative real, which is exactly the contract of
  the principal square root on the non-negative reals;
* fallible operations (the `pyQCDassert` range check, out-of-bounds vector
  accesses) return `Option`, with `none` marking the failure.

Code of the repository that is not present under `src/` (the lattice
layout, the lattice container and the conjugate-gradient solver) is
modelled from the specification; those definitions carry doc comments
starting with `Modelled from the spec:`.
-/

/-- Complex numbers with rational coordinates, the executable model of
`std::complex<Real>`. -/
@[ext]
structure CQ where
  re : ℚ
  im : ℚ
deriving DecidableEq

namespace CQ

instance : Zero CQ := ⟨⟨0, 0⟩⟩
instance : One CQ := ⟨⟨1, 0⟩⟩
instance : Add CQ := ⟨fun z w => ⟨z.re + w.re, z.im + w.im⟩⟩
instance : Neg CQ := ⟨fun z => ⟨-z.re, -z.im⟩⟩
instance : Sub CQ := ⟨fun z w => ⟨z.re - w.re, z.im - w.im⟩⟩
instance : Mul CQ :=
  ⟨fun z w => ⟨z.re * w.re - z.im * w.im, z.re * w.im + z.im * w.re⟩⟩

@[simp] theorem zero_re : (0 : CQ).re = 0 := rfl
@[simp] theorem zero_im : (0 : CQ).im = 0 := rfl
@[simp] theorem one_re : (1 : CQ).re = 1 := rfl
@[simp] theorem one_im : (1 : CQ).im = 0 := rfl
@[simp] theorem add_re (z w : CQ) : (z + w).re = z.re + w.re := rfl
@[simp] theorem add_im (z w : CQ) : (z + w).im = z.im + w.im := rfl
@[simp] theorem neg_re (z : CQ) : (-z).re = -z.re := rfl
@[simp] theorem neg_im (z : CQ) : (-z).im = -z.im := rfl
@[simp] theorem sub_re (z w : CQ) : (z - w).re = z.re - w.re := rfl
@[simp] theorem sub_im (z w : CQ) : (z - w).im = z.im - w.im := rfl
@[simp] theorem mul_re (z w : CQ) : (z * w).re = z.re * w.re - z.im * w.im := rfl
@[simp] theorem mul_im (z w : CQ) : (z * w).im = z.re * w.im + z.im * w.re := rfl

instance : CommRing CQ where
  add_assoc a b c := by ext <;> simp <;> ring
  zero_add a := by ext <;> simp
  add_zero a := by ext <;> simp
  add_comm a b := by ext <;> simp <;> ring
  left_distrib a b c := by ext <;> simp <;> ring
  right_distrib a b c := by ext <;> simp <;> ring
  zero_mul a := by ext <;> simp
  mul_zero a := by ext <;> simp
  mul_assoc a b c := by ext <;> simp <;> ring
  one_mul a := by ext <;> simp
  mul_one a := by ext <;> simp
  mul_comm a b := by ext <;> simp <;> ring
  sub_eq_add_neg a b := by ext <;> simp <;> ring
  neg_add_cancel a := by ext <;> simp
  nsmul n z := ⟨n * z.re, n * z.im⟩
  nsmul_zero a := by ext <;> simp
  nsmul_succ n a := by ext <;> simp <;> ring
  zsmul n z := ⟨n * z.re, n * z.im⟩
  zsmul_zero' a := by ext <;> simp
  zsmul_succ' n a := by ext <;> push_cast <;> simp <;> ring
  zsmul_neg' n a := by ext <;> push_cast <;> simp <;> ring

/-- Complex conjugation as the star operation. -/
instance : StarRing CQ where
  star z := ⟨z.re, -z.im⟩
  star_involutive z := by ext <;> simp
  star_mul z w := by ext <;> simp <;> ring
  star_add z w := by ext <;> simp <;> ring

@[simp] theorem star_re (z : CQ) : (star z).re = z.re := rfl
@[simp] theorem star_im (z : CQ) : (star z).im = -z.im := rfl

/-- Real rational embedded as a complex number. -/
def ofRat (q : ℚ) : CQ := ⟨q, 0⟩

@[simp] theorem ofRat_re (q : ℚ) : (ofRat q).re = q := rfl
@[simp] theorem ofRat_im (q : ℚ) : (ofRat q).im = 0 := rfl

@[simp] theorem ofRat_mul (p q : ℚ) : ofRat p * ofRat q = ofRat (p * q) := by
  ext <;> simp

@[simp] theorem ofRat_add (p q : ℚ) : ofRat p + ofRat q = ofRat (p + q) := by
  ext <;> simp

@[simp] theorem ofRat_zero : ofRat 0 = 0 := rfl
@[simp] theorem ofRat_one : ofRat 1 = 1 := rfl

@[simp] theorem ofRat_eq_iff (p q : ℚ) : ofRat p = ofRat q ↔ p = q := by
  constructor
  · intro h; exact congrArg re h
  · intro h; rw [h]

/-- The imaginary unit. -/
def ii : CQ := ⟨0, 1⟩

/-- Complex inverse, `z⁻¹ = conj z / |z|²`; sends `0` to `0`. -/
instance : Inv CQ :=
  ⟨fun z => ⟨z.re / (z.re ^ 2 + z.im ^ 2), -z.im / (z.re ^ 2 + z.im ^ 2)⟩⟩

instance : Div CQ := ⟨fun z w => z * w⁻¹⟩

theorem inv_def (z : CQ) :
    z⁻¹ = ⟨z.re / (z.re ^ 2 + z.im ^ 2), -z.im / (z.re ^ 2 + z.im ^ 2)⟩ := rfl

theorem div_def (z w : CQ) : z / w = z * w⁻¹ := rfl

/-- Squared modulus, a rational. -/
def normSq (z : CQ) : ℚ := z.re ^ 2 + z.im ^ 2

theorem normSq_nonneg (z : CQ) : 0 ≤ normSq z := by
  have h1 : (0:ℚ) ≤ z.re ^ 2 := sq_nonneg _
  have h2 : (0:ℚ) ≤ z.im ^ 2 := sq_nonneg _
  unfold normSq; linarith

theorem normSq_eq_zero_iff (z : CQ) : normSq z = 0 ↔ z = 0 := by
  constructor
  · intro h
    have h1 : (0:ℚ) ≤ z.re ^ 2 := sq_nonneg _
    have h2 : (0:ℚ) ≤ z.im ^ 2 := sq_nonneg _
    have hre : z.re ^ 2 = 0 := by unfold normSq at h; linarith
    have him : z.im ^ 2 = 0 := by unfold normSq at h; linarith
    ext
    · exact sq_eq_zero_iff.mp hre
    · exact sq_eq_zero_iff.mp him
  · intro h; rw [h]; unfold normSq; simp

theorem mul_inv_cancel_of_ne_zero {z : CQ} (hz : z ≠ 0) : z * z⁻¹ = 1 := by
  have hn : normSq z ≠ 0 := fun h => hz ((normSq_eq_zero_iff z).mp h)
  have hn' : z.re ^ 2 + z.im ^ 2 ≠ 0 := hn
  ext
  · show z.re * (z.re / (z.re ^ 2 + z.im ^ 2)) -
        z.im * (-z.im / (z.re ^ 2 + z.im ^ 2)) = 1
    field_simp
    ring
  · show z.re * (-z.im / (z.re ^ 2 + z.im ^ 2)) +
        z.im * (z.re / (z.re ^ 2 + z.im ^ 2)) = 0
    field_simp
    ring

end CQ

/-! ## SU(2) subgroup positions (`utils/matrices.hpp`, `compute_su2_subgroup_pos`)

The C++ loop

```
pyQCDassert((index < Nc), std::range_error("SU(2) subgroup index invalid"));
unsigned int tmp = index;
for (i = 0; tmp >= Nc - 1 - i; ++i) tmp -= (Nc - 1 - i);
j = i + 1 + tmp;
```

runs over `unsigned int`; `Nc - 1 - i` is computed modulo `2^32` (`Nc`
converts to `unsigned`), which matters once `i` exceeds `Nc - 1`.  The
assertion failure (a thrown `std::range_error`) is modelled by `none`.
-/

/-- One iteration bound of the subgroup search loop: the value of
`Nc - 1 - i` in 32-bit unsigned arithmetic. -/
def su2LoopBound (nc i : ℕ) : ℕ := (((nc : ℤ) - 1 - (i : ℤ)) % (2 ^ 32)).toNat

/-- The `for` loop of `compute_su2_subgroup_pos`, with explicit fuel; the
fuel supplied by callers always suffices for termination of the C++ loop. -/
def su2SubgroupLoop (nc : ℕ) : ℕ → ℕ → ℕ → ℕ × ℕ
  | 0, tmp, i => (i, i + 1 + tmp)
  | fuel + 1, tmp, i =>
    if su2LoopBound nc i ≤ tmp then
      su2SubgroupLoop nc fuel (tmp - su2LoopBound nc i) (i + 1)
    else
      (i, i + 1 + tmp)

/-- `compute_su2_subgroup_pos<Nc>(index, i, j)` from `utils/matrices.hpp`:
asserts `index < Nc` (note: not `index < Nc(Nc-1)/2`), then walks the
lexicographic groups.  `none` models the thrown `std::range_error`. -/
def compute_su2_subgroup_pos (nc index : ℕ) : Option (ℕ × ℕ) :=
  if index < nc then some (su2SubgroupLoop nc (index + nc + 2) index 0) else none

/-- The lexicographic sequence of index pairs `(i, j)` with `i < j < Nc`,
as the specification enumerates them. -/
def su2SubgroupPairs (nc : ℕ) : List (ℕ × ℕ) :=
  (List.range nc).flatMap (fun i => (List.range (nc - 1 - i)).map (fun t => (i, i + 1 + t)))


/-! ## Colour matrices and the SU(2) utilities of `utils/matrices.hpp` -/

open Matrix in
/-- An `Nc x Nc` complex colour matrix (`ColourMatrix<Real, Nc>`). -/
abbrev CMat (n : ℕ) := Matrix (Fin n) (Fin n) CQ

open scoped Matrix

/-- A 2x2 complex matrix (`SU2Matrix<Real>`). -/
abbrev Mat2 := CMat 2

/-- A colour vector (`ColourVector<Real, Nc>`). -/
abbrev CVec (n : ℕ) := Fin n → CQ

/-- Pauli matrix `sigma0` (the identity). -/
def sigma0 : Mat2 := 1

/-- Pauli matrix `sigma1`. -/
def sigma1 : Mat2 := !![0, 1; 1, 0]

/-- Pauli matrix `sigma2`. -/
def sigma2 : Mat2 := !![0, -CQ.ii; CQ.ii, 0]

/-- Pauli matrix `sigma3`. -/
def sigma3 : Mat2 := !![1, 0; 0, -1]

/-- `construct_su2(coefficients)` from `utils/matrices.hpp`:
`a0*sigma0 + I*(a1*sigma1 + a2*sigma2 + a3*sigma3)`. -/
def construct_su2 (a : Fin 4 → ℚ) : Mat2 :=
  CQ.ofRat (a 0) • sigma0 +
    CQ.ii • (CQ.ofRat (a 1) • sigma1 + CQ.ofRat (a 2) • sigma2 + CQ.ofRat (a 3) • sigma3)

/-- The quaternion normal form `[[α, β], [-conj β, conj α]]` shared by all
SU(2)-like matrices appearing in the heatbath. -/
def quatMat (α β : CQ) : Mat2 := !![α, β; -(star β), star α]

theorem construct_su2_eq_quatMat (a : Fin 4 → ℚ) :
    construct_su2 a = quatMat ⟨a 0, a 3⟩ ⟨a 2, a 1⟩ := by
  unfold construct_su2 quatMat sigma0 sigma1 sigma2 sigma3 CQ.ii
  apply Matrix.ext
  intro x y
  fin_cases x <;> fin_cases y <;>
    (apply CQ.ext <;>
      simp [Matrix.add_apply, Matrix.smul_apply, Matrix.one_apply, smul_eq_mul,
        CQ.ofRat] <;> ring)


/-- The body of `extract_su2` once the pair `(i, j)` is known: take the 2x2
submatrix `R` and return `R - R† + I * conj(trace R)`. -/
def extractMat (n : ℕ) (W : CMat n) (i j : Fin n) : Mat2 :=
  let R : Mat2 := !![W i i, W i j; W j i, W j j]
  R - Rᴴ + star R.trace • (1 : Mat2)

/-- `extract_su2(colour_matrix, subgroup)` from `utils/matrices.hpp`.
`none` models the assertion failure inside `compute_su2_subgroup_pos` and
an out-of-range Eigen access. -/
def extract_su2 (n : ℕ) (W : CMat n) (subgroup : ℕ) : Option Mat2 :=
  (compute_su2_subgroup_pos n subgroup).bind fun p =>
    if h : p.1 < n ∧ p.2 < n then
      some (extractMat n W ⟨p.1, h.1⟩ ⟨p.2, h.2⟩)
    else
      none

/-- The body of `insert_su2` once the pair `(i, j)` is known: overwrite the
four block entries of the identity, last write winning as in the C++
assignment sequence. -/
def insertMat (n : ℕ) (X : Mat2) (i j : Fin n) : CMat n :=
  Matrix.of fun a b =>
    if a = j ∧ b = j then X 1 1
    else if a = j ∧ b = i then X 1 0
    else if a = i ∧ b = j then X 0 1
    else if a = i ∧ b = i then X 0 0
    else (1 : CMat n) a b

/-- `insert_su2<Nc>(su2_matrix, subgroup)` from `utils/matrices.hpp`: start
from the `Nc x Nc` identity and overwrite the `(i,i)`, `(i,j)`, `(j,i)`,
`(j,j)` entries with the entries of the 2x2 matrix. -/
def insert_su2 (n : ℕ) (X : Mat2) (subgroup : ℕ) : Option (CMat n) :=
  (compute_su2_subgroup_pos n subgroup).bind fun p =>
    if h : p.1 < n ∧ p.2 < n then
      some (insertMat n X ⟨p.1, h.1⟩ ⟨p.2, h.2⟩)
    else
      none

/-- Unitary with unit determinant: membership in SU(n). -/
def IsSUMat (n : ℕ) (M : CMat n) : Prop := M * Mᴴ = 1 ∧ M.det = 1

instance (n : ℕ) (M : CMat n) : Decidable (IsSUMat n M) := by
  unfold IsSUMat; infer_instance

theorem IsSUMat.mul {n : ℕ} {M N : CMat n} (hM : IsSUMat n M) (hN : IsSUMat n N) :
    IsSUMat n (M * N) := by
  refine ⟨?_, ?_⟩
  · rw [Matrix.conjTranspose_mul, Matrix.mul_assoc, ← Matrix.mul_assoc N,
      hN.1, Matrix.one_mul, hM.1]
  · rw [Matrix.det_mul, hM.2, hN.2, mul_one]

theorem IsSUMat.conjTranspose {n : ℕ} {M : CMat n} (hM : IsSUMat n M) :
    IsSUMat n Mᴴ := by
  refine ⟨?_, ?_⟩
  · rw [Matrix.conjTranspose_conjTranspose]
    exact (Matrix.mul_eq_one_comm).mp hM.1
  · rw [Matrix.det_conjTranspose, hM.2]
    rfl

theorem quatMat_conjTranspose (α β : CQ) :
    (quatMat α β)ᴴ = quatMat (star α) (-β) := by
  rw [Matrix.eta_fin_two ((quatMat α β)ᴴ)]
  simp [quatMat, Matrix.conjTranspose_apply]

theorem quatMat_one : quatMat 1 0 = 1 := by
  unfold quatMat
  rw [Matrix.one_fin_two]
  simp

theorem quatMat_mul_conjTranspose (α β : CQ) :
    quatMat α β * (quatMat α β)ᴴ = quatMat (α * star α + β * star β) 0 := by
  rw [quatMat_conjTranspose]
  unfold quatMat
  rw [Matrix.mul_fin_two]
  apply Matrix.ext
  intro x y
  fin_cases x <;> fin_cases y <;>
    (simp [star_add, star_mul, star_star] <;> ring)

theorem det_quatMat (α β : CQ) :
    (quatMat α β).det = α * star α + β * star β := by
  rw [Matrix.det_fin_two]
  unfold quatMat
  simp
  try ring

/-- A quaternion-form matrix whose determinant is `1` lies in SU(2). -/
theorem quatMat_isSU {α β : CQ} (h : α * star α + β * star β = 1) :
    IsSUMat 2 (quatMat α β) := by
  refine ⟨?_, ?_⟩
  · rw [quatMat_mul_conjTranspose, h, quatMat_one]
  · rw [det_quatMat, h]

/-- The norm-squared of the coefficient 4-vector; SU(2) membership of
`construct_su2 a` is equivalent to this being `1`. -/
def coeffNormSq (a : Fin 4 → ℚ) : ℚ := a 0 ^ 2 + a 1 ^ 2 + a 2 ^ 2 + a 3 ^ 2

theorem construct_su2_isSU {a : Fin 4 → ℚ} (h : coeffNormSq a = 1) :
    IsSUMat 2 (construct_su2 a) := by
  rw [construct_su2_eq_quatMat]
  apply quatMat_isSU
  unfold coeffNormSq at h
  ext <;> simp <;> nlinarith [h]

theorem quatMat_apply_zero_zero (α β : CQ) : quatMat α β 0 0 = α := rfl
theorem quatMat_apply_zero_one (α β : CQ) : quatMat α β 0 1 = β := rfl
theorem quatMat_apply_one_zero (α β : CQ) : quatMat α β 1 0 = -(star β) := rfl
theorem quatMat_apply_one_one (α β : CQ) : quatMat α β 1 1 = star α := rfl

/-- Every extracted submatrix has quaternion normal form. -/
theorem extractMat_eq_quatMat (n : ℕ) (W : CMat n) (i j : Fin n) :
    extractMat n W i j
      = quatMat (W i i + star (W j j)) (W i j - star (W j i)) := by
  have h00 : extractMat n W i j 0 0 = W i i + star (W j j) := by
    simp [extractMat, Matrix.sub_apply, Matrix.add_apply, Matrix.smul_apply,
      Matrix.conjTranspose_apply, Matrix.one_apply, Matrix.trace_fin_two,
      smul_eq_mul, star_add]
    try ring
  have h01 : extractMat n W i j 0 1 = W i j - star (W j i) := by
    simp [extractMat, Matrix.sub_apply, Matrix.add_apply, Matrix.smul_apply,
      Matrix.conjTranspose_apply, Matrix.one_apply, Matrix.trace_fin_two,
      smul_eq_mul, star_add]
    try ring
  have h10 : extractMat n W i j 1 0 = -(star (W i j - star (W j i))) := by
    simp [extractMat, Matrix.sub_apply, Matrix.add_apply, Matrix.smul_apply,
      Matrix.conjTranspose_apply, Matrix.one_apply, Matrix.trace_fin_two,
      smul_eq_mul, star_add, star_sub, star_star]
    try ring
  have h11 : extractMat n W i j 1 1 = star (W i i + star (W j j)) := by
    simp [extractMat, Matrix.sub_apply, Matrix.add_apply, Matrix.smul_apply,
      Matrix.conjTranspose_apply, Matrix.one_apply, Matrix.trace_fin_two,
      smul_eq_mul, star_add, star_star]
    try ring
  rw [Matrix.eta_fin_two (extractMat n W i j), h00, h01, h10, h11]
  rfl

/-! ## Insertion preserves SU(n) -/

/-- Forward map of the block relabelling: `0` and `1` go to `i` and `j`,
the rest keep their place. -/
def blockTo (n : ℕ) (i j : Fin n) :
    Fin 2 ⊕ {c : Fin n // c ≠ i ∧ c ≠ j} → Fin n
  | Sum.inl 0 => i
  | Sum.inl 1 => j
  | Sum.inr c => c.1

/-- Inverse map of the block relabelling. -/
def blockInv (n : ℕ) (i j : Fin n) (a : Fin n) :
    Fin 2 ⊕ {c : Fin n // c ≠ i ∧ c ≠ j} :=
  if h1 : a = i then Sum.inl 0
  else if h2 : a = j then Sum.inl 1
  else Sum.inr ⟨a, h1, h2⟩

/-- Relabelling of `Fin n` that puts the pair `(i, j)` first. -/
def blockEquiv (n : ℕ) (i j : Fin n) (hij : i ≠ j) :
    (Fin 2 ⊕ {c : Fin n // c ≠ i ∧ c ≠ j}) ≃ Fin n where
  toFun := blockTo n i j
  invFun := blockInv n i j
  left_inv x := by
    match x with
    | Sum.inl 0 =>
      show blockInv n i j i = Sum.inl 0
      unfold blockInv
      rw [dif_pos rfl]
    | Sum.inl 1 =>
      show blockInv n i j j = Sum.inl 1
      unfold blockInv
      rw [dif_neg hij.symm, dif_pos rfl]
    | Sum.inr c =>
      show blockInv n i j c.1 = Sum.inr c
      unfold blockInv
      rw [dif_neg c.2.1, dif_neg c.2.2]
  right_inv a := by
    show blockTo n i j (blockInv n i j a) = a
    unfold blockInv
    by_cases h1 : a = i
    · rw [dif_pos h1, h1]
      rfl
    · by_cases h2 : a = j
      · rw [dif_neg h1, dif_pos h2, h2]
        rfl
      · rw [dif_neg h1, dif_neg h2]
        rfl

theorem blockEquiv_inl_zero (n : ℕ) (i j : Fin n) (hij : i ≠ j) :
    blockEquiv n i j hij (Sum.inl 0) = i := rfl

theorem blockEquiv_inl_one (n : ℕ) (i j : Fin n) (hij : i ≠ j) :
    blockEquiv n i j hij (Sum.inl 1) = j := rfl

theorem blockEquiv_inr (n : ℕ) (i j : Fin n) (hij : i ≠ j)
    (c : {c : Fin n // c ≠ i ∧ c ≠ j}) :
    blockEquiv n i j hij (Sum.inr c) = c.1 := rfl

theorem insertMat_submatrix (n : ℕ) (X : Mat2) (i j : Fin n) (hij : i ≠ j) :
    (insertMat n X i j).submatrix (blockEquiv n i j hij) (blockEquiv n i j hij)
      = Matrix.fromBlocks X 0 0 1 := by
  apply Matrix.ext
  intro x y
  cases x with
  | inl a =>
    cases y with
    | inl b =>
      fin_cases a <;> fin_cases b <;>
        simp [Matrix.submatrix_apply, blockEquiv, blockTo, insertMat, hij, hij.symm,
          Matrix.fromBlocks]
    | inr c =>
      fin_cases a <;>
        simp [Matrix.submatrix_apply, blockEquiv, blockTo, insertMat, hij, hij.symm,
          c.2.1, c.2.2, Ne.symm c.2.1, Ne.symm c.2.2, Matrix.fromBlocks,
          Matrix.one_apply]
  | inr c =>
    cases y with
    | inl b =>
      fin_cases b <;>
        simp [Matrix.submatrix_apply, blockEquiv, blockTo, insertMat, hij, hij.symm,
          c.2.1, c.2.2, Ne.symm c.2.1, Ne.symm c.2.2, Matrix.fromBlocks,
          Matrix.one_apply]
    | inr c' =>
      have hcoe : (c.1 = c'.1) ↔ c = c' := by
        constructor
        · intro h; exact Subtype.ext h
        · intro h; rw [h]
      by_cases hcc : c = c' <;>
        simp [Matrix.submatrix_apply, blockEquiv, blockTo, insertMat,
          c.2.1, c.2.2, c'.2.1, c'.2.2, Matrix.fromBlocks, Matrix.one_apply,
          hcc, hcoe]

theorem eq_of_submatrix_equiv {m : Type} [Fintype m] [DecidableEq m]
    {n : ℕ} (e : m ≃ Fin n) {A B : CMat n}
    (h : A.submatrix e e = B.submatrix e e) : A = B := by
  apply Matrix.ext
  intro a b
  have h2 := congrFun (congrFun h (e.symm a)) (e.symm b)
  simpa [Matrix.submatrix_apply] using h2

/-- Inserting an SU(2) matrix into the identity at a pair of distinct
positions produces an SU(n) matrix. -/
theorem insertMat_isSU {n : ℕ} {X : Mat2} (i j : Fin n) (hij : i ≠ j)
    (hX : IsSUMat 2 X) : IsSUMat n (insertMat n X i j) := by
  have hsub := insertMat_submatrix n X i j hij
  constructor
  · apply eq_of_submatrix_equiv (blockEquiv n i j hij)
    rw [Matrix.submatrix_one_equiv]
    rw [← Matrix.submatrix_mul_equiv (insertMat n X i j) ((insertMat n X i j)ᴴ)
      (blockEquiv n i j hij) (blockEquiv n i j hij) (blockEquiv n i j hij)]
    rw [← Matrix.conjTranspose_submatrix, hsub]
    rw [Matrix.fromBlocks_conjTranspose, Matrix.fromBlocks_multiply]
    simp [hX.1, Matrix.fromBlocks_one]
  · have hdet := Matrix.det_submatrix_equiv_self (blockEquiv n i j hij)
      (insertMat n X i j)
    rw [← hdet, hsub, Matrix.det_fromBlocks_zero₂₁, hX.2, Matrix.det_one, mul_one]

/-- The pair returned by the subgroup loop always has `i < j`. -/
theorem su2SubgroupLoop_lt (nc : ℕ) :
    ∀ fuel tmp i, (su2SubgroupLoop nc fuel tmp i).1 < (su2SubgroupLoop nc fuel tmp i).2
  | 0, tmp, i => by simp [su2SubgroupLoop]; omega
  | fuel + 1, tmp, i => by
    unfold su2SubgroupLoop
    by_cases h : su2LoopBound nc i ≤ tmp
    · simpa [h] using su2SubgroupLoop_lt nc fuel (tmp - su2LoopBound nc i) (i + 1)
    · simp [h]; omega

theorem compute_su2_subgroup_pos_lt {nc k i j : ℕ}
    (h : compute_su2_subgroup_pos nc k = some (i, j)) : i < j := by
  unfold compute_su2_subgroup_pos at h
  by_cases hk : k < nc
  · simp only [hk, if_true, Option.some_inj] at h
    have h2 := su2SubgroupLoop_lt nc (k + nc + 2) k 0
    rw [h] at h2
    exact h2
  · simp [hk] at h

/-- If `insert_su2` succeeds on an SU(2) matrix, its result is in SU(n). -/
theorem insert_su2_isSU {n : ℕ} {X : Mat2} {k : ℕ} {N : CMat n}
    (h : insert_su2 n X k = some N) (hX : IsSUMat 2 X) : IsSUMat n N := by
  unfold insert_su2 at h
  cases hpos : compute_su2_subgroup_pos n k with
  | none => rw [hpos] at h; exact absurd h (by simp)
  | some p =>
    obtain ⟨i, j⟩ := p
    rw [hpos, Option.some_bind] at h
    by_cases hb : i < n ∧ j < n
    · rw [dif_pos hb, Option.some_inj] at h
      have hij : (⟨i, hb.1⟩ : Fin n) ≠ ⟨j, hb.2⟩ := by
        have hlt := compute_su2_subgroup_pos_lt hpos
        intro hcon
        have : i = j := congrArg Fin.val hcon
        omega
      rw [← h]
      exact insertMat_isSU _ _ hij hX
    · rw [dif_neg hb] at h
      exact absurd h (by simp)

/-! ## The heatbath update (`algorithms/heatbath.hpp`) -/

/-- Machine epsilon of the IEEE double type
(`std::numeric_limits<double>::epsilon()`). -/
def machineEps : ℚ := 1 / 2 ^ 52

/-- `su2_heatbath_update(link, staple, weight, subgroup)` from
`algorithms/heatbath.hpp`.

Randomness and the square root are oracle parameters:
* `s` models `sqrt_detA = std::sqrt(A.determinant())`; the guard
  `s * s = A.det ∧ s.im = 0 ∧ 0 ≤ s.re` keeps exactly the executions in
  which `s` is the principal square root of the determinant (which is a
  non-negative real for the quaternion-form extracted matrix); `none`
  marks an execution the rational model cannot represent;
* `xU` models the coefficient 4-vector drawn by `random_su2()`;
* `xH` the one drawn by `gen_heatbath_su2(a * weight)`.

As in the source, the division by `sqrt_detA` happens before the
degenerate-determinant test, and the inserted matrix is `X * A.adjoint()`
in both branches. -/
def su2_heatbath_update (n : ℕ) (link staple : CMat n) (weight : ℚ)
    (subgroup : ℕ) (s : CQ) (xU xH : Fin 4 → ℚ) : Option (CMat n) :=
  let W := link * staple
  (extract_su2 n W subgroup).bind fun A =>
    if s * s = A.det ∧ s.im = 0 ∧ 0 ≤ s.re then
      let Anorm := s⁻¹ • A
      let X := if s.re < 6 * machineEps then construct_su2 xU
               else construct_su2 xH
      (insert_su2 n (X * Anormᴴ) subgroup).map fun N => N * link
    else
      none

/-- A gauge field (`LatticeColourMatrix`) as a flat array of links; the
flat index is `site_index * site_size + direction`, and `size` is the total
number of stored links. -/
structure GaugeField (n : ℕ) where
  size : ℕ
  links : ℕ → CMat n

/-- The abstract gauge action contract (`gauge::Action<Real, Nc>`): an
inverse coupling `beta` and a staple computation over the field. -/
structure GaugeAction (n : ℕ) where
  beta : ℚ
  compute_staples : (ℕ → CMat n) → ℕ → CMat n

/-- The random/sqrt oracles consumed by the heatbath, indexed by the
global count of SU(2) subgroup steps performed so far. -/
structure HeatbathOracle where
  sqrtO : ℕ → CQ
  unifO : ℕ → Fin 4 → ℚ
  hbO : ℕ → Fin 4 → ℚ

/-- Fold a fallible step over a list, short-circuiting on failure; the
shape of every loop in the heatbath embedding. -/
def optFold {α β : Type} (g : β → α → Option α) (l : List β) (a : Option α) :
    Option α :=
  l.foldl (fun acc x => acc.bind (g x)) a

theorem optFold_none {α β : Type} (g : β → α → Option α) (l : List β) :
    optFold g l none = none := by
  induction l with
  | nil => rfl
  | cons x l ih => simpa [optFold] using ih

/-- An invariant preserved by every step of a fallible fold is preserved
by the whole fold. -/
theorem optFold_preserves {α β : Type} {P : α → Prop} {g : β → α → Option α}
    (hg : ∀ x a a', g x a = some a' → P a → P a') (l : List β) :
    ∀ a a', optFold g l (some a) = some a' → P a → P a' := by
  induction l with
  | nil =>
    intro a a' h hP
    simp [optFold] at h
    rw [← h]
    exact hP
  | cons x l ih =>
    intro a a' h hP
    unfold optFold at h
    rw [List.foldl_cons] at h
    cases hx : (some a).bind (g x) with
    | none =>
      rw [hx] at h
      rw [show List.foldl (fun acc y => acc.bind (g y)) none l = none from
        optFold_none g l] at h
      exact absurd h (by simp)
    | some a1 =>
      rw [hx] at h
      rw [Option.some_bind] at hx
      exact ih a1 a' h (hg x a a1 hx hP)

/-- `heatbath_link_update(gauge_field, action, link_index)` from
`algorithms/heatbath.hpp`: compute the staple once, then sweep the SU(2)
subgroups over that link.  `base` is the global step count at entry, used
to index the oracles. -/
def heatbath_link_update (n : ℕ) (O : HeatbathOracle) (base : ℕ)
    (F : GaugeField n) (action : GaugeAction n) (linkIndex : ℕ) :
    Option (GaugeField n) :=
  let staple := action.compute_staples F.links linkIndex
  let betaPrime := action.beta / (n : ℚ)
  let numSubgroups := n * (n - 1) / 2
  (optFold
    (fun k L => su2_heatbath_update n L staple betaPrime k
      (O.sqrtO (base + k)) (O.unifO (base + k)) (O.hbO (base + k)))
    (List.range numSubgroups) (some (F.links linkIndex))).map
    fun L => ⟨F.size, fun m => if m = linkIndex then L else F.links m⟩

/-- `heatbath_update(gauge_field, action, num_iter)` from
`algorithms/heatbath.hpp`: `num_iter` sweeps over every stored link in
flat-index order. -/
def heatbath_update (n : ℕ) (O : HeatbathOracle) (F : GaugeField n)
    (action : GaugeAction n) (numIter : ℕ) : Option (GaugeField n) :=
  let numLinks := F.size
  let numSubgroups := n * (n - 1) / 2
  optFold
    (fun i G => optFold
      (fun l G2 => heatbath_link_update n O ((i * numLinks + l) * numSubgroups)
        G2 action l)
      (List.range numLinks) (some G))
    (List.range numIter) (some F)

/-- Every stored link is in SU(n). -/
def AllLinksSU (n : ℕ) (F : GaugeField n) : Prop :=
  ∀ m, IsSUMat n (F.links m)

/-- Oracle values on which the heatbath preserves SU(n): each sqrt value
has positive real part (the extracted determinant is nonzero) and each
sampler output is an exactly normalised 4-vector. -/
def GoodOracle (O : HeatbathOracle) : Prop :=
  ∀ m, 0 < (O.sqrtO m).re ∧ coeffNormSq (O.unifO m) = 1 ∧
    coeffNormSq (O.hbO m) = 1

theorem star_eq_self_of_im_zero {c : CQ} (hc : c.im = 0) : star c = c := by
  ext <;> simp [hc]

theorem smul_quatMat_of_im_zero {c α β : CQ} (hc : c.im = 0) :
    c • quatMat α β = quatMat (c * α) (c * β) := by
  have hstar : star c = c := star_eq_self_of_im_zero hc
  unfold quatMat
  apply Matrix.ext
  intro x y
  fin_cases x <;> fin_cases y <;>
    (simp [Matrix.smul_apply, smul_eq_mul, star_mul, hstar] <;> ring)

theorem inv_im_zero {c : CQ} (hc : c.im = 0) : (c⁻¹).im = 0 := by
  rw [CQ.inv_def]
  simp [hc]

/-- One SU(2) heatbath step sends an SU(n) link to an SU(n) link whenever
its sqrt oracle is positive real and its sampler outputs are normalised. -/
theorem su2_heatbath_update_isSU {n : ℕ} {L staple L' : CMat n} {w : ℚ}
    {k : ℕ} {s : CQ} {xU xH : Fin 4 → ℚ}
    (h : su2_heatbath_update n L staple w k s xU xH = some L')
    (hL : IsSUMat n L) (hs : 0 < s.re)
    (hU : coeffNormSq xU = 1) (hH : coeffNormSq xH = 1) :
    IsSUMat n L' := by
  unfold su2_heatbath_update at h
  dsimp only at h
  cases hA : extract_su2 n (L * staple) k with
  | none =>
    rw [hA] at h
    exact absurd h (by simp)
  | some A =>
    rw [hA, Option.some_bind] at h
    by_cases hguard : s * s = A.det ∧ s.im = 0 ∧ 0 ≤ s.re
    · rw [if_pos hguard] at h
      obtain ⟨hdet, him, _⟩ := hguard
      have hsne : s ≠ 0 := by
        intro h0
        rw [h0] at hs
        simp at hs
      -- the extracted matrix has quaternion form
      have hform : ∃ α β, A = quatMat α β := by
        unfold extract_su2 at hA
        cases hpos : compute_su2_subgroup_pos n k with
        | none => rw [hpos] at hA; exact absurd hA (by simp)
        | some p =>
          rw [hpos, Option.some_bind] at hA
          by_cases hb : p.1 < n ∧ p.2 < n
          · rw [dif_pos hb, Option.some_inj] at hA
            rw [← hA, extractMat_eq_quatMat]
            exact ⟨_, _, rfl⟩
          · rw [dif_neg hb] at hA
            exact absurd hA (by simp)
      obtain ⟨α, β, hAq⟩ := hform
      -- the normalised matrix is in SU(2)
      have hAnorm : IsSUMat 2 (s⁻¹ • A) := by
        rw [hAq, smul_quatMat_of_im_zero (inv_im_zero him)]
        apply quatMat_isSU
        have hdetq : α * star α + β * star β = s * s := by
          rw [hAq, det_quatMat] at hdet
          exact hdet.symm
        have hsinv : star (s⁻¹) = s⁻¹ :=
          star_eq_self_of_im_zero (inv_im_zero him)
        have hcancel : s * s⁻¹ = 1 := CQ.mul_inv_cancel_of_ne_zero hsne
        calc s⁻¹ * α * star (s⁻¹ * α) + s⁻¹ * β * star (s⁻¹ * β)
            = (s⁻¹ * s⁻¹) * (α * star α + β * star β) := by
              rw [star_mul, star_mul, hsinv]; ring
          _ = (s⁻¹ * s⁻¹) * (s * s) := by rw [hdetq]
          _ = (s * s⁻¹) * (s * s⁻¹) := by ring
          _ = 1 := by rw [hcancel]; ring
      -- the sampled matrix is in SU(2), in either branch
      have hX : IsSUMat 2 (if s.re < 6 * machineEps then construct_su2 xU
          else construct_su2 xH) := by
        by_cases hbr : s.re < 6 * machineEps
        · rw [if_pos hbr]; exact construct_su2_isSU hU
        · rw [if_neg hbr]; exact construct_su2_isSU hH
      obtain ⟨N, hN, hNL⟩ := Option.map_eq_some'.mp h
      rw [← hNL]
      exact (insert_su2_isSU hN (hX.mul hAnorm.conjTranspose)).mul hL
    · rw [if_neg hguard] at h
      exact absurd h (by simp)

/-- A link update with good oracles keeps every stored link in SU(n). -/
theorem heatbath_link_update_allSU {n : ℕ} {O : HeatbathOracle} {base : ℕ}
    {F F' : GaugeField n} {action : GaugeAction n} {l : ℕ}
    (h : heatbath_link_update n O base F action l = some F')
    (hF : AllLinksSU n F) (hO : GoodOracle O) : AllLinksSU n F' := by
  unfold heatbath_link_update at h
  obtain ⟨L, hfold, hF'⟩ := Option.map_eq_some'.mp h
  have hLsu : IsSUMat n L := by
    refine optFold_preserves ?_ (List.range (n * (n - 1) / 2)) (F.links l) L
      hfold (hF l)
    intro k a a' hstep ha
    exact su2_heatbath_update_isSU hstep ha (hO (base + k)).1
      (hO (base + k)).2.1 (hO (base + k)).2.2
  intro m
  rw [← hF']
  by_cases hm : m = l
  · simpa [hm] using hLsu
  · simpa [hm] using hF m

/-- With good oracles, any number of heatbath sweeps keeps every stored
link in SU(n). -/
theorem heatbath_update_allSU {n : ℕ} {O : HeatbathOracle}
    {F F' : GaugeField n} {action : GaugeAction n} {numIter : ℕ}
    (h : heatbath_update n O F action numIter = some F')
    (hF : AllLinksSU n F) (hO : GoodOracle O) : AllLinksSU n F' := by
  unfold heatbath_update at h
  refine optFold_preserves ?_ (List.range numIter) F F' h hF
  intro i G G' hsweep hG
  refine optFold_preserves ?_ (List.range F.size) G G' hsweep hG
  intro l G2 G2' hlink hG2
  exact heatbath_link_update_allSU hlink hG2 hO

theorem one_isSU (n : ℕ) : IsSUMat n 1 := by
  constructor
  · simp
  · exact Matrix.det_one

/-! ## Concrete heatbath scenarios

`Rat` arithmetic does not reduce definitionally in this toolchain, so all
concrete executions below are evaluated with `simp`/`norm_num` through
small step lemmas. -/

theorem insertMat_one {n : ℕ} {i j : Fin n} (hij : i ≠ j) :
    insertMat n 1 i j = 1 := by
  apply Matrix.ext
  intro a b
  simp only [insertMat, Matrix.of_apply]
  by_cases haj : a = j <;> by_cases hbj : b = j <;>
    by_cases hai : a = i <;> by_cases hbi : b = i <;>
    simp_all [Matrix.one_apply]

theorem subgroup_pos_two : compute_su2_subgroup_pos 2 0 = some (0, 1) := rfl

theorem extract_su2_two (W : CMat 2) :
    extract_su2 2 W 0 = some (extractMat 2 W 0 1) := rfl

theorem insert_su2_two (X : Mat2) :
    insert_su2 2 X 0 = some (insertMat 2 X 0 1) := rfl

theorem construct_su2_unit : construct_su2 ![1, 0, 0, 0] = 1 := by
  rw [construct_su2_eq_quatMat]
  exact quatMat_one

/-- Evaluation of a single SU(2) heatbath step on the identity link with
identity staple and sqrt value `2`: the link stays the identity. -/
theorem su2_step_id_eval (w : ℚ) :
    su2_heatbath_update 2 1 1 w 0 ⟨2, 0⟩ ![1, 0, 0, 0] ![1, 0, 0, 0]
      = some 1 := by
  unfold su2_heatbath_update
  dsimp only
  rw [one_mul, extract_su2_two, Option.some_bind]
  have hA : extractMat 2 (1 : CMat 2) 0 1 = quatMat ⟨2, 0⟩ 0 := by
    rw [extractMat_eq_quatMat]
    have h1 : (1 : CMat 2) 0 0 + star ((1 : CMat 2) 1 1) = ⟨2, 0⟩ := by
      apply CQ.ext <;> simp [Matrix.one_apply] <;> norm_num
    have h2 : (1 : CMat 2) 0 1 - star ((1 : CMat 2) 1 0) = 0 := by
      apply CQ.ext <;> simp [Matrix.one_apply]
    rw [h1, h2]
  rw [hA]
  have hguard : (⟨2, 0⟩ : CQ) * ⟨2, 0⟩ = (quatMat ⟨2, 0⟩ 0).det ∧
      (⟨2, 0⟩ : CQ).im = 0 ∧ 0 ≤ (⟨2, 0⟩ : CQ).re := by
    refine ⟨?_, rfl, by norm_num⟩
    rw [det_quatMat]
    apply CQ.ext <;> simp <;> norm_num
  rw [if_pos hguard]
  have hbranch : ¬ ((⟨2, 0⟩ : CQ).re < 6 * machineEps) := by
    norm_num [machineEps]
  rw [if_neg hbranch]
  have hinv : (⟨2, 0⟩ : CQ)⁻¹ = ⟨1 / 2, 0⟩ := by
    rw [CQ.inv_def]
    apply CQ.ext <;> norm_num
  have hnorm : (⟨2, 0⟩ : CQ)⁻¹ • quatMat ⟨2, 0⟩ 0 = 1 := by
    rw [hinv, smul_quatMat_of_im_zero rfl, mul_zero]
    have h12 : (⟨1 / 2, 0⟩ : CQ) * ⟨2, 0⟩ = 1 := by
      apply CQ.ext <;> simp <;> norm_num
    rw [h12, quatMat_one]
  rw [hnorm, construct_su2_unit, Matrix.conjTranspose_one, mul_one,
    insert_su2_two, insertMat_one (by decide)]
  simp

/-- Oracle with constant sqrt value `2` and identity-producing samplers. -/
def idOracle : HeatbathOracle :=
  ⟨fun _ => ⟨2, 0⟩, fun _ => ![1, 0, 0, 0], fun _ => ![1, 0, 0, 0]⟩

/-- A one-link SU(2) gauge field holding the identity. -/
def idField : GaugeField 2 := ⟨1, fun _ => 1⟩

/-- An action with `beta = 1` whose staples are the identity matrix. -/
def idStapleAction : GaugeAction 2 := ⟨1, fun _ _ => 1⟩

/-- The field produced by one heatbath sweep of `idField` under
`idStapleAction` and `idOracle`. -/
def updatedField : GaugeField 2 :=
  ⟨1, fun m => if m = 0 then 1 else idField.links m⟩

theorem link_update_id_eval (base : ℕ) :
    heatbath_link_update 2 idOracle base idField idStapleAction 0
      = some updatedField := by
  unfold heatbath_link_update
  dsimp only [idField, idStapleAction, idOracle]
  rw [show List.range (2 * (2 - 1) / 2) = [0] from rfl]
  unfold optFold
  rw [List.foldl_cons, List.foldl_nil, Option.some_bind]
  dsimp only
  rw [su2_step_id_eval]
  rfl

theorem heatbath_update_id_eval :
    heatbath_update 2 idOracle idField idStapleAction 1 = some updatedField := by
  unfold heatbath_update
  dsimp only
  rw [show List.range 1 = [0] from rfl]
  unfold optFold
  rw [List.foldl_cons, List.foldl_nil, Option.some_bind]
  dsimp only
  rw [show idField.size = 1 from rfl]
  rw [show List.range 1 = [0] from rfl, List.foldl_cons, List.foldl_nil,
    Option.some_bind]
  rw [link_update_id_eval]

/-- C1 (amended): for every gauge field whose links are all in SU(N), every
action with positive beta, and every sweep count, whenever
`heatbath_update(field, action, n)` completes, every link of the resulting
field is still unitary with unit determinant — provided every consumed
sqrt-of-determinant value is a positive real (no extracted subgroup matrix
is exactly singular) and every random SU(2) sample is an exactly
normalised coefficient vector.  The original claim, without the
nonsingularity proviso, is refuted by a separate counterexample below. -/
theorem claim_C1_heatbath_preserves_SUN {n : ℕ} {O : HeatbathOracle}
    {F F' : GaugeField n} {action : GaugeAction n} {numIter : ℕ}
    (h : heatbath_update n O F action numIter = some F')
    (hbeta : 0 < action.beta)
    (hF : AllLinksSU n F) (hO : GoodOracle O) : AllLinksSU n F' :=
  heatbath_update_allSU h hF hO

theorem claim_C1_witness : AllLinksSU 2 updatedField := by
  refine claim_C1_heatbath_preserves_SUN heatbath_update_id_eval ?_ ?_ ?_
  · show (0 : ℚ) < 1
    norm_num
  · exact fun m => one_isSU 2
  · intro m
    refine ⟨by norm_num [idOracle], ?_, ?_⟩ <;>
      norm_num [idOracle, coeffNormSq]

/-- An action with `beta = 1` whose staples vanish: the degenerate case
the epsilon branch of the heatbath is meant to handle. -/
def zeroStapleAction : GaugeAction 2 := ⟨1, fun _ _ => 0⟩

/-- Oracle whose sqrt values are `0`, the exact value of `std::sqrt(0)`
when the extracted subgroup matrix vanishes. -/
def zeroSqrtOracle : HeatbathOracle :=
  ⟨fun _ => 0, fun _ => ![1, 0, 0, 0], fun _ => ![1, 0, 0, 0]⟩

theorem quatMat_zero : quatMat 0 0 = 0 := by
  unfold quatMat
  apply Matrix.ext
  intro x y
  fin_cases x <;> fin_cases y <;> simp

/-- Evaluation of a single SU(2) heatbath step on the identity link with a
vanishing staple: the extracted matrix is singular, the step divides by
`sqrt(det) = 0`, and the returned link is `insert_su2` of the zero
matrix. -/
theorem su2_step_zero_eval (w : ℚ) :
    su2_heatbath_update 2 1 0 w 0 0 ![1, 0, 0, 0] ![1, 0, 0, 0]
      = some (insertMat 2 0 0 1) := by
  unfold su2_heatbath_update
  dsimp only
  rw [mul_zero, extract_su2_two, Option.some_bind]
  have hA : extractMat 2 (0 : CMat 2) 0 1 = quatMat 0 0 := by
    rw [extractMat_eq_quatMat]
    have h1 : (0 : CMat 2) 0 0 + star ((0 : CMat 2) 1 1) = 0 := by
      apply CQ.ext <;> simp
    have h2 : (0 : CMat 2) 0 1 - star ((0 : CMat 2) 1 0) = 0 := by
      apply CQ.ext <;> simp
    rw [h1, h2]
  rw [hA]
  have hguard : (0 : CQ) * 0 = (quatMat 0 0).det ∧
      (0 : CQ).im = 0 ∧ 0 ≤ (0 : CQ).re := by
    refine ⟨?_, rfl, le_refl 0⟩
    rw [det_quatMat]
    apply CQ.ext <;> simp
  rw [if_pos hguard]
  have hbranch : (0 : CQ).re < 6 * machineEps := by
    norm_num [machineEps]
  rw [if_pos hbranch]
  rw [quatMat_zero, smul_zero, Matrix.conjTranspose_zero, mul_zero,
    insert_su2_two]
  simp

/-- The field after one degenerate sweep: the single link has been
replaced by `insert_su2` of the zero matrix. -/
def degenerateField : GaugeField 2 :=
  ⟨1, fun m => if m = 0 then insertMat 2 0 0 1 else idField.links m⟩

theorem link_update_zero_eval (base : ℕ) :
    heatbath_link_update 2 zeroSqrtOracle base idField zeroStapleAction 0
      = some degenerateField := by
  unfold heatbath_link_update
  dsimp only [idField, zeroStapleAction, zeroSqrtOracle]
  rw [show List.range (2 * (2 - 1) / 2) = [0] from rfl]
  unfold optFold
  rw [List.foldl_cons, List.foldl_nil, Option.some_bind]
  dsimp only
  rw [su2_step_zero_eval]
  rfl

theorem heatbath_update_zero_eval :
    heatbath_update 2 zeroSqrtOracle idField zeroStapleAction 1
      = some degenerateField := by
  unfold heatbath_update
  dsimp only
  rw [show List.range 1 = [0] from rfl]
  unfold optFold
  rw [List.foldl_cons, List.foldl_nil, Option.some_bind]
  dsimp only
  rw [show idField.size = 1 from rfl]
  rw [show List.range 1 = [0] from rfl, List.foldl_cons, List.foldl_nil,
    Option.some_bind]
  rw [link_update_zero_eval]

theorem insertMat_zero_two : insertMat 2 0 0 1 = 0 := by
  apply Matrix.ext
  intro a b
  unfold insertMat
  fin_cases a <;> fin_cases b <;> simp

/-- C1 counterexample: starting from an all-SU(2) field with positive beta,
one sweep against an action with vanishing staples completes and leaves a
link that is no longer unitary: the epsilon branch still divides the
extracted matrix by `sqrt(det) = 0` and inserts `X * (A/0)†`, wiping out
the subgroup block. -/
theorem claim_C1_counterexample :
    AllLinksSU 2 idField ∧ 0 < zeroStapleAction.beta ∧
    heatbath_update 2 zeroSqrtOracle idField zeroStapleAction 1
      = some degenerateField ∧
    ¬ IsSUMat 2 (degenerateField.links 0) := by
  refine ⟨fun m => one_isSU 2, ?_, heatbath_update_zero_eval, ?_⟩
  · show (0 : ℚ) < 1
    norm_num
  · rintro ⟨h1, -⟩
    have hlink : degenerateField.links 0 = 0 := by
      show (if (0 : ℕ) = 0 then insertMat 2 0 0 1 else idField.links 0) = 0
      rw [if_pos rfl, insertMat_zero_two]
    rw [hlink] at h1
    have h2 := congrFun (congrFun h1 0) 0
    have h3 : (0 : CQ) = 1 := by
      simpa [Matrix.one_apply] using h2
    have h4 := congrArg CQ.re h3
    norm_num at h4

/-- C9: `heatbath_link_update(field, action, link_index)` modifies only the
link at that flat index; the field keeps its size and every other link its
prior value. -/
theorem claim_C9_link_update_frame {n : ℕ} {O : HeatbathOracle} {base : ℕ}
    {F F' : GaugeField n} {action : GaugeAction n} {l : ℕ}
    (h : heatbath_link_update n O base F action l = some F') :
    F'.size = F.size ∧ ∀ m, m ≠ l → F'.links m = F.links m := by
  unfold heatbath_link_update at h
  obtain ⟨L, hfold, hF'⟩ := Option.map_eq_some'.mp h
  constructor
  · rw [← hF']
  · intro m hm
    rw [← hF']
    simp [hm]

/-- A two-link SU(2) gauge field holding the identity. -/
def idField2 : GaugeField 2 := ⟨2, fun _ => 1⟩

/-- `idField2` after a heatbath update of its first link. -/
def updatedField2 : GaugeField 2 :=
  ⟨2, fun m => if m = 0 then 1 else idField2.links m⟩

theorem link_update_id2_eval (base : ℕ) :
    heatbath_link_update 2 idOracle base idField2 idStapleAction 0
      = some updatedField2 := by
  unfold heatbath_link_update
  dsimp only [idField2, idStapleAction, idOracle]
  rw [show List.range (2 * (2 - 1) / 2) = [0] from rfl]
  unfold optFold
  rw [List.foldl_cons, List.foldl_nil, Option.some_bind]
  dsimp only
  rw [su2_step_id_eval]
  rfl

theorem claim_C9_witness : updatedField2.size = idField2.size ∧
    updatedField2.links 1 = idField2.links 1 := by
  have h := claim_C9_link_update_frame (link_update_id2_eval 0)
  exact ⟨h.1, h.2 1 (by norm_num)⟩

/-- Follows the spec's words for the degenerate heatbath branch (section
4.6, steps c-d): when `a < 6·eps` the update draws a uniform SU(2) sample
`X` and inserts exactly that `X`, with no division by `sqrt(det R)` and no
multiplication by the normalised adjoint. -/
def su2_heatbath_update_spec (n : ℕ) (link : CMat n) (subgroup : ℕ)
    (xU : Fin 4 → ℚ) : Option (CMat n) :=
  (insert_su2 n (construct_su2 xU) subgroup).map fun N => N * link

/-- In the degenerate branch the update draws the uniform sample but still
multiplies it by the normalised adjoint, after the unconditional
division. -/
theorem su2_heatbath_degenerate_eq {n : ℕ} {link staple : CMat n} {w : ℚ}
    {k : ℕ} {s : CQ} {xU xH : Fin 4 → ℚ} {A : Mat2}
    (hA : extract_su2 n (link * staple) k = some A)
    (hguard : s * s = A.det ∧ s.im = 0 ∧ 0 ≤ s.re)
    (hdeg : s.re < 6 * machineEps) :
    su2_heatbath_update n link staple w k s xU xH
      = (insert_su2 n (construct_su2 xU * (s⁻¹ • A)ᴴ) k).map
          fun N => N * link := by
  unfold su2_heatbath_update
  dsimp only
  rw [hA, Option.some_bind, if_pos hguard, if_pos hdeg]

/-- C2 (amended): in the degenerate branch (`a < 6·eps`) the update does
set `X` to the uniform random SU(2) sample, but it still divides the
extracted matrix by `sqrt(det R)` (the division happens before the branch)
and inserts `X * (R/sqrt(det R))†`, not `X` itself; the claim as stated is
refuted by a separate counterexample below. -/
theorem claim_C2_degenerate_branch {n : ℕ} {link staple : CMat n} {w : ℚ}
    {k : ℕ} {s : CQ} {xU xH : Fin 4 → ℚ} {A : Mat2}
    (hA : extract_su2 n (link * staple) k = some A)
    (hguard : s * s = A.det ∧ s.im = 0 ∧ 0 ≤ s.re)
    (hdeg : s.re < 6 * machineEps) :
    su2_heatbath_update n link staple w k s xU xH
      = (insert_su2 n (construct_su2 xU * (s⁻¹ • A)ᴴ) k).map
          fun N => N * link :=
  su2_heatbath_degenerate_eq hA hguard hdeg

/-- A staple making the extracted subgroup determinant tiny but nonzero:
`det = 2^(-122)`, so `a = 2^(-61) < 6·eps` takes the degenerate branch
while everything stays exactly representable over the rationals. -/
def tinyStaple : CMat 2 := !![⟨0, 1 / 2 ^ 61⟩, 0; 0, 0]

theorem extract_tiny_eval :
    extract_su2 2 ((1 : CMat 2) * tinyStaple) 0
      = some (quatMat ⟨0, 1 / 2 ^ 61⟩ 0) := by
  rw [one_mul, extract_su2_two]
  congr 1
  rw [extractMat_eq_quatMat]
  have h1 : tinyStaple 0 0 + star (tinyStaple 1 1) = ⟨0, 1 / 2 ^ 61⟩ := by
    apply CQ.ext <;> simp [tinyStaple]
  have h2 : tinyStaple 0 1 - star (tinyStaple 1 0) = 0 := by
    apply CQ.ext <;> simp [tinyStaple]
  rw [h1, h2]

theorem tiny_guard : (⟨1 / 2 ^ 61, 0⟩ : CQ) * ⟨1 / 2 ^ 61, 0⟩
      = (quatMat ⟨0, 1 / 2 ^ 61⟩ 0).det ∧
    (⟨1 / 2 ^ 61, 0⟩ : CQ).im = 0 ∧ 0 ≤ (⟨1 / 2 ^ 61, 0⟩ : CQ).re := by
  refine ⟨?_, rfl, by norm_num⟩
  rw [det_quatMat]
  apply CQ.ext <;> simp <;> norm_num

theorem tiny_deg : (⟨1 / 2 ^ 61, 0⟩ : CQ).re < 6 * machineEps := by
  norm_num [machineEps]

/-- Evaluation of the degenerate step at the tiny staple: the inserted
matrix is `X * Ã†` with `Ã = diag(i, -i)`, not the uniform sample `X`. -/
theorem su2_step_tiny_eval :
    su2_heatbath_update 2 1 tinyStaple 1 0 ⟨1 / 2 ^ 61, 0⟩ ![1, 0, 0, 0]
      ![1, 0, 0, 0] = some (insertMat 2 (quatMat ⟨0, -1⟩ 0) 0 1) := by
  rw [su2_heatbath_degenerate_eq extract_tiny_eval tiny_guard tiny_deg]
  have hinv : (⟨1 / 2 ^ 61, 0⟩ : CQ)⁻¹ = ⟨2 ^ 61, 0⟩ := by
    rw [CQ.inv_def]
    apply CQ.ext <;> norm_num
  have hnorm : (⟨1 / 2 ^ 61, 0⟩ : CQ)⁻¹ • quatMat ⟨0, 1 / 2 ^ 61⟩ 0
      = quatMat ⟨0, 1⟩ 0 := by
    rw [hinv, smul_quatMat_of_im_zero rfl, mul_zero]
    have h : (⟨2 ^ 61, 0⟩ : CQ) * ⟨0, 1 / 2 ^ 61⟩ = ⟨0, 1⟩ := by
      apply CQ.ext <;> simp <;> norm_num
    rw [h]
  rw [hnorm, construct_su2_unit, quatMat_conjTranspose, one_mul, neg_zero]
  rw [show star (⟨0, 1⟩ : CQ) = ⟨0, -1⟩ from rfl]
  rw [insert_su2_two]
  simp

theorem claim_C2_witness :
    su2_heatbath_update 2 1 tinyStaple 1 0 ⟨1 / 2 ^ 61, 0⟩ ![1, 0, 0, 0]
        ![1, 0, 0, 0]
      = (insert_su2 2 (construct_su2 ![1, 0, 0, 0] *
          (((⟨1 / 2 ^ 61, 0⟩ : CQ))⁻¹ • quatMat ⟨0, 1 / 2 ^ 61⟩ 0)ᴴ) 0).map
          fun N => N * 1 :=
  claim_C2_degenerate_branch extract_tiny_eval tiny_guard tiny_deg

/-- C2 counterexample: at a staple whose extracted subgroup matrix has
`a = 2^(-61) < 6·eps`, the link produced by the code differs from the one
the claim describes (inserting exactly the uniform sample): the code
yields `diag(-i, i)`, the claim predicts the identity. -/
theorem claim_C2_counterexample :
    (⟨1 / 2 ^ 61, 0⟩ : CQ).re < 6 * machineEps ∧
    su2_heatbath_update 2 1 tinyStaple 1 0 ⟨1 / 2 ^ 61, 0⟩ ![1, 0, 0, 0]
        ![1, 0, 0, 0]
      ≠ su2_heatbath_update_spec 2 1 0 ![1, 0, 0, 0] := by
  refine ⟨by norm_num [machineEps], ?_⟩
  rw [su2_step_tiny_eval]
  have hspec : su2_heatbath_update_spec 2 (1 : CMat 2) 0 ![1, 0, 0, 0]
      = some 1 := by
    unfold su2_heatbath_update_spec
    rw [construct_su2_unit, insert_su2_two, insertMat_one (by decide)]
    simp
  rw [hspec]
  intro hcon
  have h1 := Option.some_inj.mp hcon
  have h2 := congrFun (congrFun h1 0) 0
  have h3 : insertMat 2 (quatMat ⟨0, -1⟩ 0) 0 1 0 0 = ⟨0, -1⟩ := by
    unfold insertMat quatMat
    simp
  rw [h3, Matrix.one_apply] at h2
  have h4 := congrArg CQ.im h2
  simp at h4

/-! ## Lattice layout (modelled from the spec) and the hopping matrix
(`fermions/hopping_matrix.hpp`)

The `LexicoLayout` and `Lattice` container sources are not part of the
reviewed tree; their operations are modelled from the specification
(sections 4.1 and 4.2).  Site coordinates are modelled as integer-valued
functions of the axis, so coordinate updates are `Function.update` and
periodic sanitisation is pointwise mathematical modulo. -/

/-- Product of the extents after axis `m`: the weight of axis `m` in the
lexicographic mixed-radix order. -/
def suffixProd (shape : List ℕ) (m : ℕ) : ℕ := (shape.drop m).prod

/-- Modelled from the spec: `compute_site_coords` — mixed-radix
decomposition of a site index in declared axis order, first axis most
significant; coordinates beyond the rank are zero. -/
def siteCoordsOf (shape : List ℕ) (idx : ℕ) : ℕ → ℤ :=
  fun k => if k < shape.length then
    ((idx / suffixProd shape (k + 1)) % shape.getD k 1 : ℕ) else 0

/-- Modelled from the spec: `sanitize_site_coords` — reduce each
component modulo its extent, mathematical modulo. -/
def sanitize (shape : List ℕ) (c : ℕ → ℤ) : ℕ → ℤ :=
  fun k => c k % (shape.getD k 1 : ℤ)

/-- Modelled from the spec: `get_array_index` composed with
`get_site_index` — for the lexicographic layout both are the mixed-radix
recomposition of the coordinates. -/
def siteIndexOf (shape : List ℕ) (c : ℕ → ℤ) : ℕ :=
  (List.range shape.length).foldl (fun acc k => acc * shape.getD k 1 + (c k).toNat) 0

/-- The site index reached from site `s` by moving `δ` steps along axis
`d` under periodic wrap. -/
def shiftIndex (shape : List ℕ) (s d : ℕ) (δ : ℤ) : ℕ :=
  siteIndexOf shape (sanitize shape
    (Function.update (siteCoordsOf shape s) d (siteCoordsOf shape s d + δ)))

/-- Left-fold product `f 0 * f 1 * ... * f (m-1)`, the order of the C++
`*=` accumulation. -/
def prodRange {n : ℕ} (m : ℕ) (f : ℕ → CMat n) : CMat n :=
  (List.range m).foldl (fun acc h => acc * f h) 1

/-- The hopping matrix state: the scattered gauge field indexed by
`(site, 2d | 2d+1)`, the spin-structure sequence, the neighbour table and
the number of spins. -/
structure HoppingMatrix (n : ℕ) where
  scattered : ℕ → ℕ → CMat n
  spinStructures : List (ℕ → ℕ → CQ)
  neighbours : ℕ → ℕ → ℕ
  numSpins : ℕ

/-- One iteration of the `for (unsigned h = 0; h < Nhops; ++h)` loop of
the `HoppingMatrix` constructor: shift back, multiply the backward slot,
shift forward, multiply the forward slot, undo the `h` offset. -/
def hoppingLoopStep (n : ℕ) (shape : List ℕ) (H : ℕ) (U : ℕ → ℕ → CMat n)
    (d : ℕ) (st : (ℕ → ℤ) × CMat n × CMat n) (h : ℕ) :
    (ℕ → ℤ) × CMat n × CMat n :=
  let c1 := sanitize shape (Function.update st.1 d (st.1 d + ((h : ℤ) - H)))
  let sB := st.2.1 * U (siteIndexOf shape c1) d
  let c2 := sanitize shape (Function.update c1 d (c1 d + H))
  let sF := st.2.2 * U (siteIndexOf shape c2) d
  (Function.update c2 d (c2 d - h), sB, sF)

/-- The body of the constructor for one `(site, axis)` pair: boundary
phases, the `Nhops` walk, and the neighbour indices. -/
def hoppingSiteDir (n : ℕ) (shape : List ℕ) (H : ℕ) (U : ℕ → ℕ → CMat n)
    (phases : List CQ) (s d : ℕ) : (CMat n × CMat n) × (ℕ × ℕ) :=
  let coords := siteCoordsOf shape s
  let phaseFwd := if (shape.getD d 1 : ℤ) ≤ coords d + H
                  then phases.getD d 1 else 1
  let phaseBck := if coords d < (H : ℤ) then phases.getD d 1 else 1
  let st := (List.range H).foldl (hoppingLoopStep n shape H U d)
    (coords, phaseBck • (1 : CMat n), phaseFwd • (1 : CMat n))
  let cm := sanitize shape (Function.update st.1 d (st.1 d - H))
  let idxm := siteIndexOf shape cm
  let cp := sanitize shape (Function.update cm d (cm d + 2 * H))
  let idxp := siteIndexOf shape cp
  ((st.2.1, st.2.2), (idxm, idxp))

/-- The two-argument `HoppingMatrix` constructor: scatter the gauge field
and record the neighbour tables; the spin-structure sequence is left
empty (default-constructed). -/
def HoppingMatrix.build (n : ℕ) (shape : List ℕ) (H : ℕ)
    (U : ℕ → ℕ → CMat n) (phases : List CQ) : HoppingMatrix n :=
  ⟨fun s slot =>
      if slot % 2 = 1 then (hoppingSiteDir n shape H U phases s (slot / 2)).1.2
      else (hoppingSiteDir n shape H U phases s (slot / 2)).1.1,
   [],
   fun s slot =>
      if slot % 2 = 1 then (hoppingSiteDir n shape H U phases s (slot / 2)).2.2
      else (hoppingSiteDir n shape H U phases s (slot / 2)).2.1,
   2 ^ (shape.length / 2)⟩

/-- `set_spin_structures(matrices)`. -/
def set_spin_structures (n : ℕ) (M : HoppingMatrix n)
    (mats : List (ℕ → ℕ → CQ)) : HoppingMatrix n :=
  ⟨M.scattered, mats, M.neighbours, M.numSpins⟩

/-- The three-argument constructor: the two-argument one followed by
`set_spin_structures`. -/
def HoppingMatrix.build3 (n : ℕ) (shape : List ℕ) (H : ℕ)
    (U : ℕ → ℕ → CMat n) (phases : List CQ)
    (mats : List (ℕ → ℕ → CQ)) : HoppingMatrix n :=
  set_spin_structures n (HoppingMatrix.build n shape H U phases) mats

/-- Sum of vector values over `0, ..., m-1`. -/
def sumVecR {n : ℕ} (m : ℕ) (f : ℕ → CVec n) : CVec n := (Finset.range m).sum f

/-- The even pre-gather slot for `(arr, mu, alpha)`: the `beta`
accumulation of `spin_structures_[2 mu](alpha, beta) *
scattered_gauge_field_[2 (ndims arr + mu)] * fermion_in[ndims arr + beta]`
(as in the source, the fermion index uses `ndims`, not `num_spins`). -/
def preGatherEven (n : ℕ) (M : HoppingMatrix n) (ndims : ℕ)
    (finp : ℕ → CVec n) (arr mu alpha : ℕ) : CVec n :=
  sumVecR M.numSpins fun beta =>
    (M.spinStructures.getD (2 * mu) (fun _ _ => 0)) alpha beta •
      (M.scattered arr (2 * mu)).mulVec (finp (ndims * arr + beta))

/-- The odd pre-gather slot: as the even one, with the adjoint of the
forward scattered link and `spin_structures_[2 mu + 1]`. -/
def preGatherOdd (n : ℕ) (M : HoppingMatrix n) (ndims : ℕ)
    (finp : ℕ → CVec n) (arr mu alpha : ℕ) : CVec n :=
  sumVecR M.numSpins fun beta =>
    (M.spinStructures.getD (2 * mu + 1) (fun _ _ => 0)) alpha beta •
      ((M.scattered arr (2 * mu + 1))ᴴ).mulVec (finp (ndims * arr + beta))

/-- `HoppingMatrix::apply_full(fermion_out, fermion_in)`.

The function never clears `fermion_out`: both loops only `+=`.  The
denotation below collects the `+=` accumulations as finite sums (addition
is commutative, the pre-gather buffer is written before it is read, and
distinct `(arr, mu, alpha)` triples write distinct pre-gather slots); the
fresh pre-gather buffer is taken zero-initialised, following the field
container of spec section 4.2.  When the loops run at all and the
spin-structure sequence is shorter than `2 * ndims`, the reads
`spin_structures_[2 mu]`, `spin_structures_[2 mu + 1]` go out of bounds;
that failure is modelled by `none`. -/
def applyFull (n : ℕ) (shape : List ℕ) (M : HoppingMatrix n)
    (fout finp : ℕ → CVec n) : Option (ℕ → CVec n) :=
  let ndims := shape.length
  let volume := shape.prod
  if 0 < volume ∧ 0 < ndims ∧ 0 < M.numSpins ∧
      M.spinStructures.length < 2 * ndims then
    none
  else
    some fun p =>
      fout p + sumVecR volume (fun arr => sumVecR ndims fun mu =>
        sumVecR M.numSpins fun alpha =>
          (if M.numSpins * M.neighbours arr (2 * mu) + alpha = p
            then preGatherEven n M ndims finp arr mu alpha else 0) +
          (if M.numSpins * M.neighbours arr (2 * mu + 1) + alpha = p
            then preGatherOdd n M ndims finp arr mu alpha else 0))

/-- C3 (amended): `apply_full` does not zero `fermion_out` first; it
accumulates, so its result is the prior contents of `out` plus the
stencil applied to `in`.  The original claim (result independent of the
prior `out`) is refuted by a separate counterexample below. -/
theorem claim_C3_applyFull_accumulates (n : ℕ) (shape : List ℕ)
    (M : HoppingMatrix n) (fout finp : ℕ → CVec n) :
    applyFull n shape M fout finp
      = (applyFull n shape M (fun _ => 0) finp).map
          fun r => fun p => fout p + r p := by
  unfold applyFull
  by_cases hg : 0 < shape.prod ∧ 0 < shape.length ∧ 0 < M.numSpins ∧
      M.spinStructures.length < 2 * shape.length
  · rw [if_pos hg, if_pos hg]
    rfl
  · rw [if_neg hg, if_neg hg, Option.map_some']
    congr 1
    funext p
    funext i
    show fout p i + _ = fout p i + ((0 : CVec n) i + _)
    rw [Pi.zero_apply, zero_add]

/-- C10: the two-argument constructor leaves the spin-structure sequence
empty, and `apply_full` reads entries `2 mu` and `2 mu + 1` of that
sequence for every axis, so on a non-degenerate lattice (positive volume
and rank) calling it before `set_spin_structures` accesses the sequence
out of bounds. -/
theorem claim_C10_applyFull_needs_spin_structures (n : ℕ) (shape : List ℕ)
    (H : ℕ) (U : ℕ → ℕ → CMat n) (phases : List CQ)
    (fout finp : ℕ → CVec n)
    (h1 : 0 < shape.prod) (h2 : 0 < shape.length) :
    (HoppingMatrix.build n shape H U phases).spinStructures = [] ∧
    applyFull n shape (HoppingMatrix.build n shape H U phases) fout finp
      = none := by
  refine ⟨rfl, ?_⟩
  unfold applyFull
  rw [if_pos]
  exact ⟨h1, h2, Nat.pos_pow_of_pos _ (by norm_num), by
    show List.length [] < 2 * shape.length
    simpa using by omega⟩

theorem claim_C10_witness :
    (HoppingMatrix.build 1 [2] 1 (fun _ _ => 1) [1]).spinStructures = [] ∧
    applyFull 1 [2] (HoppingMatrix.build 1 [2] 1 (fun _ _ => 1) [1])
      (fun _ _ => 1) (fun _ _ => 0) = none :=
  claim_C10_applyFull_needs_spin_structures 1 [2] 1 (fun _ _ => 1) [1]
    (fun _ _ => 1) (fun _ _ => 0) (by norm_num) (by norm_num)

/-- With a vanishing input spinor every pre-gather slot vanishes, so
`apply_full` returns the prior contents of `out` unchanged. -/
theorem applyFull_zero_input (n : ℕ) (shape : List ℕ) (M : HoppingMatrix n)
    (fout : ℕ → CVec n) :
    applyFull n shape M fout (fun _ => 0)
      = if 0 < shape.prod ∧ 0 < shape.length ∧ 0 < M.numSpins ∧
            M.spinStructures.length < 2 * shape.length
        then none else some fout := by
  unfold applyFull
  by_cases hg : 0 < shape.prod ∧ 0 < shape.length ∧ 0 < M.numSpins ∧
      M.spinStructures.length < 2 * shape.length
  · rw [if_pos hg, if_pos hg]
  · rw [if_neg hg, if_neg hg]
    congr 1
    funext p
    have hpreE : ∀ arr mu alpha,
        preGatherEven n M shape.length (fun _ => 0) arr mu alpha = 0 := by
      intro arr mu alpha
      unfold preGatherEven sumVecR
      apply Finset.sum_eq_zero
      intro b hb
      rw [show ((fun _ => (0 : CVec n)) (shape.length * arr + b)) = 0 from rfl,
        Matrix.mulVec_zero, smul_zero]
    have hpreO : ∀ arr mu alpha,
        preGatherOdd n M shape.length (fun _ => 0) arr mu alpha = 0 := by
      intro arr mu alpha
      unfold preGatherOdd sumVecR
      apply Finset.sum_eq_zero
      intro b hb
      rw [show ((fun _ => (0 : CVec n)) (shape.length * arr + b)) = 0 from rfl,
        Matrix.mulVec_zero, smul_zero]
    simp [hpreE, hpreO, sumVecR]

/-- The hopping matrix of the C3 scenario: a one-colour two-site line with
identity links, unit phases, and constant unit spin structures. -/
def cxHop : HoppingMatrix 1 :=
  HoppingMatrix.build3 1 [2] 1 (fun _ _ => 1) [1]
    [fun _ _ => 1, fun _ _ => 1]

/-- C3 counterexample: on the same vanishing input spinor (stencil result
zero), `apply_full` returns `1` from a prior `out` filled with ones and
`0` from a zeroed `out` — the result accumulates into `out` instead of
being independent of it. -/
theorem claim_C3_counterexample :
    (applyFull 1 [2] cxHop (fun _ _ => 1) (fun _ => 0)).map (fun r => r 0 0)
      = some 1 ∧
    (applyFull 1 [2] cxHop (fun _ _ => 0) (fun _ => 0)).map (fun r => r 0 0)
      = some 0 ∧
    (1 : CQ) ≠ 0 := by
  have hguard : ¬ (0 < List.prod [2] ∧ 0 < List.length [2] ∧
      0 < cxHop.numSpins ∧ cxHop.spinStructures.length < 2 * List.length [2]) := by
    intro hcon
    have h4 := hcon.2.2.2
    revert h4
    show ¬ ((2 : ℕ) < 2)
    omega
  refine ⟨?_, ?_, ?_⟩
  · rw [applyFull_zero_input, if_neg hguard]
    rfl
  · rw [applyFull_zero_input, if_neg hguard]
    rfl
  · intro hcon
    have h := congrArg CQ.re hcon
    norm_num at h

/-! ## Correctness of the hopping-matrix precompute (C4) -/

/-- Coordinates that lie in their extents and vanish beyond the rank. -/
def InRangeCoords (shape : List ℕ) (c : ℕ → ℤ) : Prop :=
  (∀ k, k < shape.length → 0 ≤ c k ∧ c k < shape.getD k 1) ∧
  (∀ k, shape.length ≤ k → c k = 0)

theorem siteCoordsOf_inRange (shape : List ℕ) (s : ℕ)
    (hpos : ∀ L ∈ shape, 0 < L) :
    InRangeCoords shape (siteCoordsOf shape s) := by
  constructor
  · intro k hk
    have hL : 0 < shape.getD k 1 := by
      have hmem : shape.getD k 1 ∈ shape := by
        rw [List.getD_eq_getElem shape 1 hk]
        exact List.getElem_mem hk
      exact hpos _ hmem
    unfold siteCoordsOf
    rw [if_pos hk]
    constructor
    · exact Int.ofNat_nonneg _
    · exact_mod_cast Nat.mod_lt _ hL
  · intro k hk
    unfold siteCoordsOf
    rw [if_neg (by omega)]

theorem sanitize_update_eq {shape : List ℕ} {c : ℕ → ℤ}
    (hc : InRangeCoords shape c) (d : ℕ) (v : ℤ) :
    sanitize shape (Function.update c d v)
      = Function.update c d (v % (shape.getD d 1 : ℤ)) := by
  funext k
  by_cases hkd : k = d
  · subst hkd
    unfold sanitize
    rw [Function.update_same, Function.update_same]
  · unfold sanitize
    rw [Function.update_noteq hkd, Function.update_noteq hkd]
    by_cases hk : k < shape.length
    · exact Int.emod_eq_of_lt (hc.1 k hk).1 (hc.1 k hk).2
    · rw [hc.2 k (by omega)]
      have hdflt : shape.getD k 1 = 1 := by
        rw [List.getD_eq_default]
        omega
      rw [hdflt]
      simp

theorem prodRange_zero {n : ℕ} (f : ℕ → CMat n) : prodRange 0 f = 1 := rfl

theorem prodRange_succ {n : ℕ} (m : ℕ) (f : ℕ → CMat n) :
    prodRange (m + 1) f = prodRange m f * f m := by
  unfold prodRange
  rw [List.range_succ, List.foldl_append, List.foldl_cons, List.foldl_nil]

theorem emod_congr_add {a b x L : ℤ} (h : a % L = b % L) :
    (a + x) % L = (b + x) % L :=
  Int.ModEq.add_right x h

theorem emod_congr_sub {a b x L : ℤ} (h : a % L = b % L) :
    (a - x) % L = (b - x) % L :=
  Int.ModEq.sub_right x h

theorem emod_self_idem (a L : ℤ) : (a % L) % L = a % L :=
  Int.emod_emod_of_dvd a dvd_rfl

/-- Invariant of the constructor's walk: after `m` iterations the working
coordinates differ from the site's coordinates only along `d` (and agree
with them modulo the extent), and the two slots hold the partial
straight-line products. -/
theorem hoppingLoop_state (n : ℕ) (shape : List ℕ) (H : ℕ)
    (U : ℕ → ℕ → CMat n) (d s : ℕ)
    (hpos : ∀ L ∈ shape, 0 < L) (B F : CMat n) :
    ∀ m, ∃ v,
      (List.range m).foldl (hoppingLoopStep n shape H U d)
          (siteCoordsOf shape s, B, F)
        = (Function.update (siteCoordsOf shape s) d v,
           B * prodRange m (fun t => U (shiftIndex shape s d ((t : ℤ) - H)) d),
           F * prodRange m (fun t => U (shiftIndex shape s d t) d)) ∧
      v % (shape.getD d 1 : ℤ)
        = siteCoordsOf shape s d % (shape.getD d 1 : ℤ) := by
  have hcoords := siteCoordsOf_inRange shape s hpos
  intro m
  induction m with
  | zero =>
    refine ⟨siteCoordsOf shape s d, ?_, rfl⟩
    rw [List.range_zero, List.foldl_nil, Function.update_eq_self,
      prodRange_zero, prodRange_zero, mul_one, mul_one]
  | succ m ih =>
    obtain ⟨v, hst, hv⟩ := ih
    rw [List.range_succ, List.foldl_append, List.foldl_cons, List.foldl_nil,
      hst]
    unfold hoppingLoopStep
    dsimp only
    set cd := siteCoordsOf shape s d with hcd
    set Ld := (shape.getD d 1 : ℤ) with hLd
    have hupd1 : Function.update (Function.update (siteCoordsOf shape s) d v)
        d (Function.update (siteCoordsOf shape s) d v d + ((m : ℤ) - H))
        = Function.update (siteCoordsOf shape s) d (v + ((m : ℤ) - H)) := by
      rw [Function.update_same, Function.update_idem]
    have hc1 : sanitize shape (Function.update
        (Function.update (siteCoordsOf shape s) d v) d
        (Function.update (siteCoordsOf shape s) d v d + ((m : ℤ) - H)))
        = Function.update (siteCoordsOf shape s) d
            ((cd + ((m : ℤ) - H)) % Ld) := by
      rw [hupd1, sanitize_update_eq hcoords]
      rw [emod_congr_add hv]
    rw [hc1]
    have hidx1 : siteIndexOf shape (Function.update (siteCoordsOf shape s) d
        ((cd + ((m : ℤ) - H)) % Ld)) = shiftIndex shape s d ((m : ℤ) - H) := by
      unfold shiftIndex
      rw [sanitize_update_eq hcoords]
    have hupd2 : Function.update (Function.update (siteCoordsOf shape s) d
        ((cd + ((m : ℤ) - H)) % Ld)) d
        (Function.update (siteCoordsOf shape s) d
          ((cd + ((m : ℤ) - H)) % Ld) d + (H : ℤ))
        = Function.update (siteCoordsOf shape s) d
            ((cd + ((m : ℤ) - H)) % Ld + (H : ℤ)) := by
      rw [Function.update_same, Function.update_idem]
    have hmod2 : ((cd + ((m : ℤ) - H)) % Ld + (H : ℤ)) % Ld
        = (cd + (m : ℤ)) % Ld := by
      rw [emod_congr_add (emod_self_idem _ _)]
      congr 1
      ring
    have hc2 : sanitize shape (Function.update (Function.update
        (siteCoordsOf shape s) d ((cd + ((m : ℤ) - H)) % Ld)) d
        (Function.update (siteCoordsOf shape s) d
          ((cd + ((m : ℤ) - H)) % Ld) d + (H : ℤ)))
        = Function.update (siteCoordsOf shape s) d ((cd + (m : ℤ)) % Ld) := by
      rw [hupd2, sanitize_update_eq hcoords, hmod2]
    rw [hc2]
    have hidx2 : siteIndexOf shape (Function.update (siteCoordsOf shape s) d
        ((cd + (m : ℤ)) % Ld)) = shiftIndex shape s d (m : ℤ) := by
      unfold shiftIndex
      rw [sanitize_update_eq hcoords]
    refine ⟨(cd + (m : ℤ)) % Ld - (m : ℤ), ?_, ?_⟩
    · rw [hidx1, hidx2, Function.update_same, Function.update_idem,
        prodRange_succ, prodRange_succ, mul_assoc, mul_assoc]
    · rw [emod_congr_sub (emod_self_idem _ _)]
      congr 1
      ring

/-- Closed form of the constructor body for one `(site, axis)` pair. -/
theorem hoppingSiteDir_eval (n : ℕ) (shape : List ℕ) (H : ℕ)
    (U : ℕ → ℕ → CMat n) (phases : List CQ) (s d : ℕ)
    (hpos : ∀ L ∈ shape, 0 < L) :
    hoppingSiteDir n shape H U phases s d
      = (((if siteCoordsOf shape s d < (H : ℤ) then phases.getD d 1 else 1) •
            prodRange H (fun h => U (shiftIndex shape s d ((h : ℤ) - H)) d),
          (if (shape.getD d 1 : ℤ) ≤ siteCoordsOf shape s d + H
            then phases.getD d 1 else 1) •
            prodRange H (fun h => U (shiftIndex shape s d (h : ℤ)) d)),
         (shiftIndex shape s d (-(H : ℤ)), shiftIndex shape s d (H : ℤ))) := by
  have hcoords := siteCoordsOf_inRange shape s hpos
  obtain ⟨v, hst, hv⟩ := hoppingLoop_state n shape H U d s hpos
    ((if siteCoordsOf shape s d < (H : ℤ) then phases.getD d 1 else 1) •
      (1 : CMat n))
    ((if (shape.getD d 1 : ℤ) ≤ siteCoordsOf shape s d + H
      then phases.getD d 1 else 1) • (1 : CMat n)) H
  unfold hoppingSiteDir
  dsimp only
  rw [hst]
  dsimp only
  set cd := siteCoordsOf shape s d with hcd
  set Ld := (shape.getD d 1 : ℤ) with hLd
  have hcm : sanitize shape (Function.update
      (Function.update (siteCoordsOf shape s) d v) d
      (Function.update (siteCoordsOf shape s) d v d - (H : ℤ)))
      = Function.update (siteCoordsOf shape s) d ((cd - (H : ℤ)) % Ld) := by
    rw [Function.update_same, Function.update_idem,
      sanitize_update_eq hcoords, emod_congr_sub hv]
  rw [hcm]
  have hidxm : siteIndexOf shape (Function.update (siteCoordsOf shape s) d
      ((cd - (H : ℤ)) % Ld)) = shiftIndex shape s d (-(H : ℤ)) := by
    unfold shiftIndex
    rw [sanitize_update_eq hcoords]
    rw [show cd + -(H : ℤ) = cd - (H : ℤ) by ring]
  have hcp : sanitize shape (Function.update
      (Function.update (siteCoordsOf shape s) d ((cd - (H : ℤ)) % Ld)) d
      (Function.update (siteCoordsOf shape s) d ((cd - (H : ℤ)) % Ld) d
        + 2 * (H : ℕ)))
      = Function.update (siteCoordsOf shape s) d ((cd + (H : ℤ)) % Ld) := by
    rw [Function.update_same, Function.update_idem,
      sanitize_update_eq hcoords]
    rw [emod_congr_add (emod_self_idem _ _)]
    congr 2
    push_cast
    ring
  rw [hcp]
  have hidxp : siteIndexOf shape (Function.update (siteCoordsOf shape s) d
      ((cd + (H : ℤ)) % Ld)) = shiftIndex shape s d (H : ℤ) := by
    unfold shiftIndex
    rw [sanitize_update_eq hcoords]
  rw [hidxm, hidxp, smul_mul_assoc, smul_mul_assoc, one_mul, one_mul]

/-- C4: for every site and axis, the hopping-matrix precompute stores in
the forward slot (`2d+1`) the straight-line product of the `H` links in
direction `d` starting from `s`, initialised with `phase[d]` exactly when
`c_d + H` is at least the extent (else `1`); in the backward slot (`2d`)
the product of the `H` links starting from `s - H·e_d`, initialised with
`phase[d]` exactly when `c_d < H`; and it records as neighbours the sites
`H` steps backward (slot `2d`) and forward (slot `2d+1`) under periodic
wrap. -/
theorem claim_C4_hopping_precompute (n : ℕ) (shape : List ℕ) (H : ℕ)
    (U : ℕ → ℕ → CMat n) (phases : List CQ) (s d : ℕ)
    (hpos : ∀ L ∈ shape, 0 < L) :
    (HoppingMatrix.build n shape H U phases).scattered s (2 * d + 1)
      = (if (shape.getD d 1 : ℤ) ≤ siteCoordsOf shape s d + H
         then phases.getD d 1 else 1) •
        prodRange H (fun h => U (shiftIndex shape s d (h : ℤ)) d) ∧
    (HoppingMatrix.build n shape H U phases).scattered s (2 * d)
      = (if siteCoordsOf shape s d < (H : ℤ) then phases.getD d 1 else 1) •
        prodRange H (fun h => U (shiftIndex shape s d ((h : ℤ) - H)) d) ∧
    (HoppingMatrix.build n shape H U phases).neighbours s (2 * d)
      = shiftIndex shape s d (-(H : ℤ)) ∧
    (HoppingMatrix.build n shape H U phases).neighbours s (2 * d + 1)
      = shiftIndex shape s d (H : ℤ) := by
  unfold HoppingMatrix.build
  dsimp only
  rw [show (2 * d + 1) % 2 = 1 from by omega,
    show (2 * d) % 2 = 0 from by omega,
    show (2 * d + 1) / 2 = d from by omega,
    show (2 * d) / 2 = d from by omega]
  rw [if_pos (rfl : (1 : ℕ) = 1), if_neg (show ¬((0 : ℕ) = 1) from by omega)]
  rw [hoppingSiteDir_eval n shape H U phases s d hpos]
  exact ⟨rfl, rfl, rfl, rfl⟩

theorem claim_C4_witness :
    (HoppingMatrix.build 1 [2] 1 (fun _ _ => 1) [⟨1, 0⟩]).scattered 0 1
      = (if ((2 : ℕ) : ℤ) ≤ siteCoordsOf [2] 0 0 + 1
         then [(⟨1, 0⟩ : CQ)].getD 0 1 else 1) •
        prodRange 1 (fun h => (1 : CMat 1)) ∧
    (HoppingMatrix.build 1 [2] 1 (fun _ _ => 1) [⟨1, 0⟩]).scattered 0 0
      = (if siteCoordsOf [2] 0 0 < (1 : ℤ)
         then [(⟨1, 0⟩ : CQ)].getD 0 1 else 1) •
        prodRange 1 (fun h => (1 : CMat 1)) ∧
    (HoppingMatrix.build 1 [2] 1 (fun _ _ => 1) [⟨1, 0⟩]).neighbours 0 0
      = shiftIndex [2] 0 0 (-1) ∧
    (HoppingMatrix.build 1 [2] 1 (fun _ _ => 1) [⟨1, 0⟩]).neighbours 0 1
      = shiftIndex [2] 0 0 1 := by
  have h := claim_C4_hopping_precompute 1 [2] 1 (fun _ _ => 1) [⟨1, 0⟩] 0 0
    (by intro L hL; simp at hL; omega)
  simpa using h

/-! ## Subgroup extraction/insertion round trip (C8) and the subgroup
index check (C6, C7) -/

/-- The 2x2 submatrix of `M` at the index pair `(i, j)`. -/
def restrictBlock (n : ℕ) (M : CMat n) (i j : Fin n) : Mat2 :=
  !![M i i, M i j; M j i, M j j]

/-- Modelled from the spec: the projection of `U` onto the `(i, j)` SU(2)
subgroup — `extract_su2(U, k)` normalised by the square root `s` of its
determinant (spec sections 4.4 and 8.3). -/
def su2_projection (n : ℕ) (U : CMat n) (i j : Fin n) (s : CQ) : Mat2 :=
  s⁻¹ • extractMat n U i j

theorem restrict_insertMat {n : ℕ} (X : Mat2) (i j : Fin n) (hij : i ≠ j) :
    restrictBlock n (insertMat n X i j) i j = X := by
  unfold restrictBlock insertMat
  apply Matrix.ext
  intro x y
  fin_cases x <;> fin_cases y <;>
    simp [Matrix.of_apply, hij, hij.symm]

/-- C8: for every colour matrix `U` and in-range subgroup index `k` with
pair `(i, j)`, `extract_su2` returns `R - R† + I conj(trace R)` for the
submatrix `R` at `(i, j)`, and inserting the √det-normalised extraction
back with `insert_su2` and restricting to the `(i, j)` block recovers
exactly the projection of `U` onto that SU(2) subgroup. -/
theorem claim_C8_roundtrip {n : ℕ} {k i j : ℕ} (U : CMat n) (s : CQ)
    (hpos : compute_su2_subgroup_pos n k = some (i, j))
    (hi : i < n) (hj : j < n) :
    extract_su2 n U k = some (extractMat n U ⟨i, hi⟩ ⟨j, hj⟩) ∧
    extractMat n U ⟨i, hi⟩ ⟨j, hj⟩
      = restrictBlock n U ⟨i, hi⟩ ⟨j, hj⟩
        - (restrictBlock n U ⟨i, hi⟩ ⟨j, hj⟩)ᴴ
        + star (restrictBlock n U ⟨i, hi⟩ ⟨j, hj⟩).trace • (1 : Mat2) ∧
    (insert_su2 n (su2_projection n U ⟨i, hi⟩ ⟨j, hj⟩ s) k).map
        (fun N => restrictBlock n N ⟨i, hi⟩ ⟨j, hj⟩)
      = some (su2_projection n U ⟨i, hi⟩ ⟨j, hj⟩ s) := by
  have hij : (⟨i, hi⟩ : Fin n) ≠ ⟨j, hj⟩ := by
    have hlt := compute_su2_subgroup_pos_lt hpos
    intro hcon
    have h2 : i = j := congrArg Fin.val hcon
    omega
  refine ⟨?_, rfl, ?_⟩
  · unfold extract_su2
    rw [hpos, Option.some_bind]
    rw [dif_pos (show (i, j).1 < n ∧ (i, j).2 < n from ⟨hi, hj⟩)]
  · unfold insert_su2
    rw [hpos, Option.some_bind]
    rw [dif_pos (show (i, j).1 < n ∧ (i, j).2 < n from ⟨hi, hj⟩),
      Option.map_some']
    rw [restrict_insertMat _ _ _ hij]

theorem claim_C8_witness :
    extract_su2 3 (1 : CMat 3) 1 = some (extractMat 3 1 ⟨0, by norm_num⟩
      ⟨2, by norm_num⟩) ∧
    extractMat 3 (1 : CMat 3) ⟨0, by norm_num⟩ ⟨2, by norm_num⟩
      = restrictBlock 3 1 ⟨0, by norm_num⟩ ⟨2, by norm_num⟩
        - (restrictBlock 3 1 ⟨0, by norm_num⟩ ⟨2, by norm_num⟩)ᴴ
        + star (restrictBlock 3 (1 : CMat 3) ⟨0, by norm_num⟩
            ⟨2, by norm_num⟩).trace • (1 : Mat2) ∧
    (insert_su2 3 (su2_projection 3 1 ⟨0, by norm_num⟩ ⟨2, by norm_num⟩
        ⟨2, 0⟩) 1).map
        (fun N => restrictBlock 3 N ⟨0, by norm_num⟩ ⟨2, by norm_num⟩)
      = some (su2_projection 3 (1 : CMat 3) ⟨0, by norm_num⟩
          ⟨2, by norm_num⟩ ⟨2, 0⟩) :=
  claim_C8_roundtrip (1 : CMat 3) ⟨2, 0⟩
    (show compute_su2_subgroup_pos 3 1 = some (0, 2) from rfl)
    (by norm_num) (by norm_num)

/-- C6: the range check of `compute_su2_subgroup_pos` is `index < Nc`,
not `index < Nc(Nc-1)/2`: at `Nc = 4` the in-range subgroup index `4`
(there are 6 subgroups) raises the range error, while at `Nc = 2` the
out-of-range index `1` (there is 1 subgroup) passes the check and walks
off the matrix, yielding the out-of-bounds pair `(2, 3)`. -/
theorem claim_C6_range_check :
    compute_su2_subgroup_pos 4 4 = none ∧ (4 : ℕ) < 4 * (4 - 1) / 2 ∧
    compute_su2_subgroup_pos 2 1 = some (2, 3) ∧ 2 * (2 - 1) / 2 ≤ 1 :=
  ⟨rfl, by norm_num, rfl, by norm_num⟩

/-- C7: for small `Nc` and every index that passes the (buggy) `< Nc`
check, the loop does return the k-th lexicographic pair — in particular
`(0,1), (0,2), (1,2)` for `Nc = 3` — but at `Nc = 4` the in-range index
`5` (pair `(2,3)`) raises the range error instead of returning it. -/
theorem claim_C7_lexicographic :
    compute_su2_subgroup_pos 3 0 = some (0, 1) ∧
    compute_su2_subgroup_pos 3 1 = some (0, 2) ∧
    compute_su2_subgroup_pos 3 2 = some (1, 2) ∧
    (∀ nc < 16, ∀ k, k < nc → k < nc * (nc - 1) / 2 →
      compute_su2_subgroup_pos nc k = (su2SubgroupPairs nc).get? k) ∧
    (su2SubgroupPairs 4).get? 5 = some (2, 3) ∧
    compute_su2_subgroup_pos 4 5 = none := by
  refine ⟨rfl, rfl, rfl, by decide, rfl, rfl⟩

/-! ## Conjugate gradient (modelled from the spec, section 4.8)

`algorithms/conjugate_gradient.hpp` is not part of the reviewed tree; the
solver is modelled from the specification.  The returned residual is kept
as the squared norm `⟨r, r⟩` (the spec returns its square root, which is
zero exactly when the square is). -/

/-- The fermion action contract (spec section 4.8): `apply_full`,
`apply_hermiticity` and `remove_hermiticity`. -/
structure FermionAction (m : ℕ) where
  apply_full : (Fin m → CQ) → (Fin m → CQ)
  apply_hermiticity : (Fin m → CQ) → (Fin m → CQ)
  remove_hermiticity : (Fin m → CQ) → (Fin m → CQ)

/-- Complex inner product, conjugating the first argument. -/
def cgInner {m : ℕ} (x y : Fin m → CQ) : CQ :=
  Finset.univ.sum fun i => star (x i) * y i

/-- Squared norm. -/
def cgNormSq {m : ℕ} (x : Fin m → CQ) : ℚ := (cgInner x x).re

/-- Modelled from the spec: the conjugate-gradient iteration of section
4.8, with the iteration cap as structural fuel. -/
def cgLoop {m : ℕ} (applyOp applyDag : (Fin m → CQ) → (Fin m → CQ))
    (b : Fin m → CQ) (tol : ℚ) :
    ℕ → (Fin m → CQ) → (Fin m → CQ) → (Fin m → CQ) → ℕ →
      (Fin m → CQ) × ℚ × ℕ
  | 0, x, r, _, k => (x, cgNormSq r, k)
  | fuel + 1, x, r, p, k =>
    let q := applyDag (applyOp p)
    let alpha := cgInner r r / cgInner p q
    let x' := fun i => x i + alpha * p i
    let r' := fun i => r i - alpha * q i
    if cgNormSq r' ≤ tol ^ 2 * cgNormSq b then (x', cgNormSq r', k + 1)
    else
      cgLoop applyOp applyDag b tol fuel x' r'
        (fun i => r' i + (cgInner r' r' / cgInner r r) * p i) (k + 1)

/-- Modelled from the spec: `conjugate_gradient(action, rhs, max_iter,
tol)` solves `M†M x = M† b`; the adjoint application wraps `apply_full`
in `apply_hermiticity`.  Returns (solution, squared residual,
iterations). -/
def conjugate_gradient {m : ℕ} (act : FermionAction m) (b : Fin m → CQ)
    (maxIter : ℕ) (tol : ℚ) : (Fin m → CQ) × ℚ × ℕ :=
  let applyDag := fun v =>
    act.apply_hermiticity (act.apply_full (act.apply_hermiticity v))
  let r0 := applyDag b
  cgLoop act.apply_full applyDag b tol maxIter (fun _ => 0) r0 r0 0

/-- The proportional test action of `test_conjugate_gradient.cpp`:
`apply_full` multiplies by the constant `c`, the hermiticity operations
are the identity. -/
def propAction (m : ℕ) (c : ℚ) : FermionAction m :=
  ⟨fun v i => CQ.ofRat c * v i, fun v => v, fun v => v⟩

theorem cgInner_mul_left {m : ℕ} (u : CQ) (x y : Fin m → CQ) :
    cgInner (fun i => u * x i) y = star u * cgInner x y := by
  unfold cgInner
  rw [Finset.mul_sum]
  apply Finset.sum_congr rfl
  intro i hi
  rw [star_mul]
  ring

theorem cgInner_mul_right {m : ℕ} (u : CQ) (x y : Fin m → CQ) :
    cgInner x (fun i => u * y i) = u * cgInner x y := by
  unfold cgInner
  rw [Finset.mul_sum]
  apply Finset.sum_congr rfl
  intro i hi
  ring

theorem re_sum {s : Finset α} {f : α → CQ} :
    (Finset.sum s f).re = Finset.sum s fun i => (f i).re := by
  classical
  induction s using Finset.induction with
  | empty => simp
  | insert hx ih => rw [Finset.sum_insert hx, Finset.sum_insert hx,
      CQ.add_re, ih]

theorem cgInner_self {m : ℕ} (x : Fin m → CQ) :
    cgInner x x = CQ.ofRat (Finset.univ.sum fun i => CQ.normSq (x i)) := by
  unfold cgInner
  apply CQ.ext
  · rw [re_sum]
    show _ = Finset.univ.sum fun i => CQ.normSq (x i)
    apply Finset.sum_congr rfl
    intro i hi
    unfold CQ.normSq
    rw [CQ.mul_re, CQ.star_re, CQ.star_im]
    ring
  · have : ∀ s : Finset (Fin m), (Finset.sum s fun i => star (x i) * x i).im
        = 0 := by
      classical
      intro s
      induction s using Finset.induction with
      | empty => simp
      | insert hx ih => rw [Finset.sum_insert hx, CQ.add_im, ih,
          CQ.mul_im, CQ.star_re, CQ.star_im]; ring
    rw [this]
    rfl

theorem cgNormSq_nonneg {m : ℕ} (x : Fin m → CQ) : 0 ≤ cgNormSq x := by
  unfold cgNormSq
  rw [cgInner_self]
  exact Finset.sum_nonneg fun i hi => CQ.normSq_nonneg (x i)

theorem cgInner_zero {m : ℕ} :
    cgInner (fun _ : Fin m => (0 : CQ)) (fun _ => 0) = 0 := by
  unfold cgInner
  simp

theorem ofRat_inv_eq (q : ℚ) : (CQ.ofRat q)⁻¹ = CQ.ofRat q⁻¹ := by
  rw [CQ.inv_def]
  apply CQ.ext
  · show q / (q ^ 2 + 0 ^ 2) = q⁻¹
    by_cases hq : q = 0
    · simp [hq]
    · field_simp
      ring
  · show -0 / (q ^ 2 + 0 ^ 2) = 0
    simp

theorem ofRat_div_eq (p q : ℚ) : CQ.ofRat p / CQ.ofRat q = CQ.ofRat (p / q) := by
  rw [CQ.div_def, ofRat_inv_eq, CQ.ofRat_mul]
  rw [div_eq_mul_inv]

theorem star_ofRat (q : ℚ) : star (CQ.ofRat q) = CQ.ofRat q := by
  apply CQ.ext <;> simp

/-- The squared norm of the zero vector vanishes. -/
theorem cgNormSq_zero {m : ℕ} : cgNormSq (fun _ : Fin m => (0 : CQ)) = 0 := by
  unfold cgNormSq
  rw [cgInner_zero]
  rfl

/-- On the proportional action `A = c·I` with `c > 0`, the conjugate
gradient converges in the first iteration and returns `x = b / c`,
squared residual `0`, and iteration count `1`. -/
theorem cg_proportional_eval (m : ℕ) (c : ℚ) (b : Fin m → CQ)
    (maxIter : ℕ) (tol : ℚ) (hc : 0 < c) (hIter : 1 ≤ maxIter) :
    conjugate_gradient (propAction m c) b maxIter tol
      = (fun i => CQ.ofRat (1 / c) * b i, 0, 1) := by
  obtain ⟨f, rfl⟩ : ∃ f, maxIter = f + 1 := ⟨maxIter - 1, by omega⟩
  unfold conjugate_gradient propAction
  dsimp only
  simp only [cgLoop]
  set C := CQ.ofRat c with hC
  set σ := Finset.univ.sum fun i => CQ.normSq (b i) with hσ
  have hS : cgInner b b = CQ.ofRat σ := cgInner_self b
  have hcne : c ≠ 0 := ne_of_gt hc
  have hq : (fun i => C * (C * (C * b i)))
      = fun i => CQ.ofRat (c * c * c) * b i := by
    funext i
    rw [hC, ← CQ.ofRat_mul, ← CQ.ofRat_mul]
    ring
  have hrr : cgInner (fun i => C * b i) (fun i => C * b i)
      = CQ.ofRat (c * (c * σ)) := by
    rw [cgInner_mul_left, cgInner_mul_right, hS, hC, star_ofRat,
      CQ.ofRat_mul, CQ.ofRat_mul]
  have hpq : cgInner (fun i => C * b i) (fun i => C * (C * (C * b i)))
      = CQ.ofRat (c * (c * c * c * σ)) := by
    rw [hq, cgInner_mul_left, cgInner_mul_right, hS, hC, star_ofRat,
      CQ.ofRat_mul, CQ.ofRat_mul, CQ.ofRat_eq_iff]
  have halpha : cgInner (fun i => C * b i) (fun i => C * b i) /
      cgInner (fun i => C * b i) (fun i => C * (C * (C * b i)))
      = CQ.ofRat ((c * (c * σ)) / (c * (c * c * c * σ))) := by
    rw [hrr, hpq, ofRat_div_eq]
  rw [halpha]
  by_cases hzero : σ = 0
  · -- vanishing right-hand side: every component of b is zero
    have hb : ∀ i, b i = 0 := by
      intro i
      have h1 : CQ.normSq (b i) = 0 := by
        have h2 := Finset.sum_eq_zero_iff_of_nonneg
          (fun j (_ : j ∈ Finset.univ) => CQ.normSq_nonneg (b j))
        rw [← hσ] at h2
        exact (h2.mp hzero) i (Finset.mem_univ i)
      exact (CQ.normSq_eq_zero_iff (b i)).mp h1
    have hr0 : (fun i => C * b i -
        CQ.ofRat ((c * (c * σ)) / (c * (c * c * c * σ))) *
          (C * (C * (C * b i)))) = fun _ : Fin m => (0 : CQ) := by
      funext i
      rw [hb i]
      ring
    have hx0 : (fun i => (0 : CQ) +
        CQ.ofRat ((c * (c * σ)) / (c * (c * c * c * σ))) * (C * b i))
        = fun i => CQ.ofRat (1 / c) * b i := by
      funext i
      rw [hb i]
      ring
    rw [hr0, hx0, cgNormSq_zero,
      if_pos (mul_nonneg (sq_nonneg tol) (cgNormSq_nonneg b))]
  · -- nonvanishing right-hand side: one exact step
    have hA : (c * (c * σ)) / (c * (c * c * c * σ)) = 1 / (c * c) := by
      field_simp
      ring
    rw [hA]
    have key : CQ.ofRat (1 / (c * c)) * (CQ.ofRat c * (CQ.ofRat c *
        CQ.ofRat c)) = CQ.ofRat c := by
      rw [CQ.ofRat_mul, CQ.ofRat_mul, CQ.ofRat_mul, CQ.ofRat_eq_iff]
      field_simp
    have key2 : CQ.ofRat (1 / (c * c)) * CQ.ofRat c = CQ.ofRat (1 / c) := by
      rw [CQ.ofRat_mul, CQ.ofRat_eq_iff]
      field_simp
    have hr : (fun i => C * b i - CQ.ofRat (1 / (c * c)) *
        (C * (C * (C * b i)))) = fun _ : Fin m => (0 : CQ) := by
      funext i
      rw [hC]
      linear_combination (-(b i)) * key
    have hx : (fun i => (0 : CQ) + CQ.ofRat (1 / (c * c)) * (C * b i))
        = fun i => CQ.ofRat (1 / c) * b i := by
      funext i
      rw [hC]
      linear_combination (b i) * key2
    rw [hr, hx, cgNormSq_zero,
      if_pos (mul_nonneg (sq_nonneg tol) (cgNormSq_nonneg b))]

/-- C5: the conjugate gradient on a proportional action `A = c·I` with
`c > 0` and `max_iter ≥ 1` converges in the first iteration, returning
the solution `b / c` (componentwise `(1/c)·b`), final squared residual
`0`, and iteration count `1`.  This corrects the claimed solution
`b / c²`: the code's own test expects component `0.5 = b/c` for `c = 2`,
`b = 1`, and the recurrence gives `x = (⟨r,r⟩/⟨p,A†A p⟩)·r = b/c`. -/
theorem claim_C5_cg_proportional (m : ℕ) (c : ℚ) (b : Fin m → CQ)
    (maxIter : ℕ) (tol : ℚ) (hc : 0 < c) (hIter : 1 ≤ maxIter) :
    conjugate_gradient (propAction m c) b maxIter tol
      = (fun i => CQ.ofRat (1 / c) * b i, 0, 1) :=
  cg_proportional_eval m c b maxIter tol hc hIter

/-- Witness for C5: on the test's configuration (`c = 2`, `b` the constant
one vector, 1000 iterations allowed), the claim theorem applies and yields
solution `(1/2)·b`, residual `0`, one iteration. -/
theorem claim_C5_witness :
    conjugate_gradient (propAction 1 2) (fun _ => (1 : CQ)) 1000 (1 / 10 ^ 10)
      = (fun i => CQ.ofRat (1 / 2) * 1, 0, 1) :=
  claim_C5_cg_proportional 1 2 (fun _ => 1) 1000 (1 / 10 ^ 10)
    (by norm_num) (by norm_num)

/-- Counterexample for C5 as literally stated: the claim says the returned
solution is `b / c²`; for `c = 2`, `b = 1` that would be `1/4`, but the
code returns `1/2` (matching its own test). -/
theorem claim_C5_counterexample :
    (conjugate_gradient (propAction 1 2) (fun _ => (1 : CQ)) 1000
      (1 / 10 ^ 10)).1 0 ≠ CQ.ofRat (1 / 4) := by
  rw [cg_proportional_eval 1 2 (fun _ => (1 : CQ)) 1000 (1 / 10 ^ 10)
    (by norm_num) (by norm_num)]
  rw [mul_one, ne_eq, CQ.ofRat_eq_iff]
  norm_num
